import Mathlib

/- Verification development for the ingestion and indexing engine of
gutenberg_search (src/gutenberg.py): the text-boundary extractor, the
word-frequency counter, the word index (safe and fast modes) and the
ingestion pipeline. -/

set_option maxRecDepth 4000

namespace Gutenberg

/-! ## Boundary extractor (get_ebook, lines 85-105)

The marker patterns use only two regex constructs: literal characters
(including escaped `\*`, `\[`, `\!`) and the `.*` wildcard, which in
Python `re` matches a run of non-newline characters.  Searches are
case-insensitive (re.I) and `re.search` returns the leftmost match. -/

/-- An atom of the regex fragment used by the boilerplate marker patterns. -/
inductive RAtom where
  | lit (c : Char)
  | dotStar
deriving DecidableEq

/-- Compile a marker pattern: `\x` escapes `x`, `.*` is the wildcard,
every other character is a literal. -/
def compilePat : List Char → List RAtom
  | [] => []
  | '\\' :: c :: rest => .lit c :: compilePat rest
  | '.' :: '*' :: rest => .dotStar :: compilePat rest
  | c :: rest => .lit c :: compilePat rest

/-- Try a continuation after consuming any run of non-newline characters
(the semantics of a greedy-or-backtracking `.*`: only the existence of a
match matters for `re.search`). -/
def matchStar (f : List Char → Bool) : List Char → Bool
  | [] => f []
  | d :: ds => f (d :: ds) || ((d != '\n') && matchStar f ds)

/-- Does the pattern match some prefix of the text (case-insensitively)? -/
def matchAtoms : List RAtom → List Char → Bool
  | [], _ => true
  | .lit _ :: _, [] => false
  | .lit c :: ps, d :: ds => (d.toLower == c.toLower) && matchAtoms ps ds
  | .dotStar :: ps, ds => matchStar (fun t => matchAtoms ps t) ds

/-- Index of the leftmost match of a pattern, starting the scan at index `i`
(`re.search` semantics: the least starting index at which the pattern matches). -/
def searchFrom (p : List RAtom) : List Char → Nat → Option Nat
  | [], i => if matchAtoms p [] then some i else none
  | d :: ds, i => if matchAtoms p (d :: ds) then some i else searchFrom p ds (i + 1)

/-- `re.search(pat, s, re.I)`, returning the match start. -/
def reSearch (pat : String) (s : List Char) : Option Nat :=
  searchFrom (compilePat pat.data) s 0

/-- The header/footer loops try the patterns in list order and stop at the
first pattern that matches anywhere (pattern priority beats position). -/
def firstMatch : List String → List Char → Option Nat
  | [], _ => none
  | p :: ps, s =>
    match reSearch p s with
    | some i => some i
    | none => firstMatch ps s

/-- Patterns for end of ebook header (`_ebook_headers`, lines 9-17). -/
def ebookHeaders : List String := [
  "\nProduced by ",
  "\n.*\\*\\*\\*.*START OF .*PROJECT GUTENBERG",
  "\n.*END .*SMALL PRINT",
  "\n<<THIS ELECTRONIC VERSION",
  "\n\\*SMALL PRINT\\!",
  "\n\\*.*This file should be named",
  "\nCharacter set encoding"
]

/-- Patterns for start of ebook footer (`_ebook_footers`, lines 20-24). -/
def ebookFooters : List String := [
  "\n.*Project Gutenberg",
  "\n<<THIS ELECTRONIC VERSION",
  "\n\\[End of original text"
]

/-- Python `s.find(c, i)`: least index `j ≥ i` with `s[j] = c`, else `-1`. -/
def pyFind (s : List Char) (c : Char) (i : Nat) : Int :=
  match (s.drop i).findIdx? (fun d => d == c) with
  | some j => ((i + j : Nat) : Int)
  | none => -1

/-- Python slice `s[a:b]` for `0 ≤ a` and `0 ≤ b`. -/
def pySlice (s : List Char) (a b : Int) : List Char :=
  (s.drop a.toNat).take (b - a).toNat

/-- Boundary logic of `get_ebook` (lines 85-105), applied to the fetched
text: scan the first 20000 characters for a header marker, set the body
start just after the next line break, then scan for a footer marker.  As in
the source, the footer search runs over the whole text while `ind` (the
intended start of the footer search region) is nevertheless added to the
resulting match position. -/
def extractBody (text : List Char) : Option (List Char) :=
  match firstMatch ebookHeaders (text.take 20000) with
  | none => none
  | some h =>
    let start : Int := pyFind text '\n' (h + 1) + 1
    let ind : Int := max start ((text.length : Int) - 30000)
    match firstMatch ebookFooters text with
    | none => none
    | some f => some (pySlice text start ((f : Int) + ind))

/-- `extractBody` on strings. -/
def extractBodyStr (s : String) : Option String :=
  (extractBody s.data).map fun l => String.mk l

/-! ## Frequency counter (count_words, lines 113-123) -/

/-- Split a character list at every occurrence of `c` (keeping empty parts). -/
def splitOnChar (c : Char) : List Char → List (List Char)
  | [] => [[]]
  | d :: ds =>
    let r := splitOnChar c ds
    if d == c then [] :: r
    else
      match r with
      | [] => [[d]]
      | x :: xs => (d :: x) :: xs

/-- Python `str.splitlines` for texts whose line breaks are `\n`: like
splitting on `\n` except that a trailing line break produces no final
empty line. -/
def pySplitlines (s : String) : List String :=
  let ps := (splitOnChar '\n' s.data).map String.mk
  if s.data = [] || s.data.getLast? == some '\n' then ps.dropLast else ps

/-- Python `str.lower` (over the ASCII range the claims use). -/
def pyLower (s : String) : String :=
  String.mk (s.data.map Char.toLower)

/-- Python `str.isalpha`: nonempty and every character alphabetic. -/
def pyIsAlpha (s : String) : Bool :=
  !s.data.isEmpty && s.data.all (fun c => c.isAlpha)

/-- The token filter of `count_words`: keep alphabetic tokens that are not
stop words. -/
def keepToken (sw : List String) (t : String) : Bool :=
  pyIsAlpha t && !sw.contains t

/-- One `Counter.update` step: bump the count of `t`, appending it on first
sight (Python dicts preserve insertion order). -/
def counterAdd : List (String × Nat) → String → List (String × Nat)
  | [], t => [(t, 1)]
  | (k, n) :: m, t => if k = t then (k, n + 1) :: m else (k, n) :: counterAdd m t

/-- `count_words` (lines 113-123): split the text into lines, tokenize each
lowercased line, keep alphabetic non-stop-word tokens, and aggregate the
counts.  The tokenizer (`nltk.tokenize.word_tokenize`) and the stop-word
list (`nltk.corpus.stopwords`) are external collaborators, passed in as
parameters. -/
def count_words (tok : String → List String) (sw : List String) (text : String) :
    List (String × Nat) :=
  (pySplitlines text).foldl
    (fun m line => ((tok (pyLower line)).filter (keepToken sw)).foldl counterAdd m) []

/-- Counter lookup: the count recorded for `w`, `0` when absent. -/
def lookupCount (m : List (String × Nat)) (w : String) : Nat :=
  match m.find? (fun kv => kv.1 = w) with
  | some kv => kv.2
  | none => 0

theorem lookupCount_counterAdd (m : List (String × Nat)) (t w : String) :
    lookupCount (counterAdd m t) w = lookupCount m w + (if t = w then 1 else 0) := by
  induction m with
  | nil =>
    by_cases h : t = w <;> simp [counterAdd, lookupCount, List.find?, h]
  | cons kv m ih =>
    obtain ⟨k, n⟩ := kv
    by_cases hk : k = t
    · subst hk
      by_cases h : k = w <;> simp [counterAdd, lookupCount, List.find?, h]
    · by_cases h : k = w
      · subst h
        have ht : ¬ t = k := fun he => hk he.symm
        simp [counterAdd, lookupCount, List.find?, hk, ht]
      · simpa [counterAdd, lookupCount, List.find?, hk, h] using ih

theorem lookupCount_foldl (ts : List String) (m : List (String × Nat)) (w : String) :
    lookupCount (ts.foldl counterAdd m) w = lookupCount m w + ts.count w := by
  induction ts generalizing m with
  | nil => simp
  | cons t ts ih =>
    rw [List.foldl_cons, ih, lookupCount_counterAdd, List.count_cons]
    by_cases h : t = w
    · simp [h]
      omega
    · simp [h, beq_eq_false_iff_ne.mpr h]

theorem lookupCount_lines (f : String → List String) (ls : List String)
    (m : List (String × Nat)) (w : String) :
    lookupCount (ls.foldl (fun m line => (f line).foldl counterAdd m) m) w
      = lookupCount m w + (ls.flatMap f).count w := by
  induction ls generalizing m with
  | nil => simp
  | cons l ls ih =>
    rw [List.foldl_cons, ih, lookupCount_foldl, List.flatMap_cons, List.count_append]
    omega

theorem filter_flatMap_comm (p : α → Bool) (f : β → List α) (ls : List β) :
    (ls.flatMap fun l => (f l).filter p) = (ls.flatMap f).filter p := by
  induction ls with
  | nil => rfl
  | cons l ls ih => simp [List.flatMap_cons, List.filter_append, ih]

/-- The count recorded by `count_words` equals the number of retained
tokens, over all lines. -/
theorem count_words_eq_count (tok : String → List String) (sw : List String)
    (text : String) (w : String) :
    lookupCount (count_words tok sw text) w
      = (((pySplitlines text).flatMap fun l => tok (pyLower l)).filter (keepToken sw)).count w := by
  rw [count_words, lookupCount_lines, ← filter_flatMap_comm]
  simp [lookupCount]

/-- Plain whitespace tokenizer, used to instantiate the abstract `nltk`
tokenizer on concrete documents (on space-separated alphabetic words the
two tokenizers agree). -/
def wsTokenize (s : String) : List String :=
  ((splitOnChar ' ' s.data).map String.mk).filter (fun t => t != "")

/-- Claim C1, evaluated at a failing input.  In the text
`"\nProduced by X\nBODY\nEnd of Project Gutenberg\n"` the header marker
matches at position 0, the body start (after the next line break) is 15,
and the footer marker matches at absolute position 19, so the claim
demands the substring `text[15:19] = "BODY"`.  The code instead returns
the substring ending at `19 + ind = 34` because the footer match position
is taken relative to the whole text and `ind` is added to it. -/
theorem c1_footer_end_bug :
    extractBodyStr "\nProduced by X\nBODY\nEnd of Project Gutenberg\n"
        = some "BODY\nEnd of Project" ∧
    firstMatch ebookFooters
        "\nProduced by X\nBODY\nEnd of Project Gutenberg\n".data = some 19 ∧
    pySlice "\nProduced by X\nBODY\nEnd of Project Gutenberg\n".data 15 19
        = "BODY".data ∧
    "BODY\nEnd of Project" ≠ "BODY" := by
  refine ⟨by decide, by decide, by decide, by decide⟩

/-- Claim C6: for every word composed only of lowercase alphabetic
characters that is not a stop word, `count_words` applied to a document
whose token-separated content is exactly `N` occurrences of that word and
nothing else yields a mapping sending the word to `N`; and the aggregate
is independent of the order of the document's lines. -/
theorem c6_count_words_exact (tok : String → List String) (sw : List String)
    (text w : String) (N : Nat)
    (hne : w.data ≠ [])
    (hlc : ∀ c ∈ w.data, c.isLower = true)
    (hsw : w ∉ sw)
    (htoks : ((pySplitlines text).flatMap fun l => tok (pyLower l)) = List.replicate N w) :
    lookupCount (count_words tok sw text) w = N ∧
    ∀ text2, (pySplitlines text2).Perm (pySplitlines text) →
      lookupCount (count_words tok sw text2) w = N := by
  have hkeep : keepToken sw w = true := by
    simp only [keepToken, pyIsAlpha, Bool.and_eq_true, Bool.not_eq_true']
    refine ⟨⟨?_, ?_⟩, ?_⟩
    · simp [List.isEmpty_iff, hne]
    · rw [List.all_eq_true]
      intro c hc
      simp [Char.isAlpha, hlc c hc]
    · simp [hsw]
  have hfilter : (List.replicate N w).filter (keepToken sw) = List.replicate N w :=
    List.filter_eq_self.mpr fun a ha => by rw [List.eq_of_mem_replicate ha]; exact hkeep
  constructor
  · rw [count_words_eq_count, htoks, hfilter, List.count_replicate_self]
  · intro text2 hperm
    rw [count_words_eq_count]
    have h2 : ((pySplitlines text2).flatMap fun l => tok (pyLower l)).Perm
        (List.replicate N w) := by
      rw [← htoks]; exact hperm.flatMap_right _
    rw [(h2.filter (keepToken sw)).count_eq w, hfilter, List.count_replicate_self]

/-- Witness for C6: the word `"cat"`, twice in a document with nothing
else, is counted exactly twice. -/
theorem c6_count_words_exact_witness :
    lookupCount (count_words wsTokenize ["the"] "cat cat") "cat" = 2 :=
  (c6_count_words_exact wsTokenize ["the"] "cat cat" "cat" 2
    (by decide) (by decide) (by decide) (by decide)).1

/-! ## Word index (Database word methods, lines 241-310)

The storage layer is modelled as the list of rows of the `words` table.
An insert consumes the parameter-dictionary keys that name actual columns
(unknown keys are ignored, as the library's executemany path does) and a
missing `word_id` primary key is assigned by autoincrement. -/

/-- One round of the reflected CRC-32 bit loop (polynomial 0xEDB88320). -/
def crc32Round (c : Nat) : Nat :=
  if c % 2 == 1 then (c / 2) ^^^ 0xEDB88320 else c / 2

/-- Fold one byte into the CRC-32 state. -/
def crc32Byte (c b : Nat) : Nat :=
  crc32Round (crc32Round (crc32Round (crc32Round
    (crc32Round (crc32Round (crc32Round (crc32Round (c ^^^ b))))))))

/-- `binascii.crc32` over a byte list. -/
def crc32 (bs : List Nat) : Nat :=
  (bs.foldl crc32Byte 0xFFFFFFFF) ^^^ 0xFFFFFFFF

/-- UTF-8 encoding of one code point. -/
def utf8Bytes (n : Nat) : List Nat :=
  if n < 0x80 then [n]
  else if n < 0x800 then [0xC0 + n / 64, 0x80 + n % 64]
  else if n < 0x10000 then [0xE0 + n / 4096, 0x80 + n / 64 % 64, 0x80 + n % 64]
  else [0xF0 + n / 262144, 0x80 + n / 4096 % 64, 0x80 + n / 64 % 64, 0x80 + n % 64]

/-- `_hash` (lines 252-256): `crc32(bytes(word, 'utf-8')) % 10000`. -/
def _hash (w : String) : Nat :=
  crc32 (w.data.flatMap fun c => utf8Bytes c.toNat) % 10000

/-- A row of the `words` table. -/
structure WordRow where
  word_id : Int
  hash : Nat
  value : String
deriving DecidableEq, Repr

/-- Values carried by the storage layer's parameter dictionaries. -/
inductive DVal where
  | i (n : Int)
  | s (v : String)
deriving DecidableEq, Repr

/-- Lookup in a string-keyed association list (first binding wins). -/
def alookup {β : Type} (d : List (String × β)) (k : String) : Option β :=
  (d.find? fun kv => kv.1 = k).map fun kv => kv.2

/-- Python dict assignment: overwrite the binding in place, appending it
when the key is new. -/
def pyDictSet {β : Type} (d : List (String × β)) (k : String) (v : β) :
    List (String × β) :=
  match d with
  | [] => [(k, v)]
  | (k0, v0) :: rest =>
    if k0 = k then (k0, v) :: rest else (k0, v0) :: pyDictSet rest k v

/-- The primary key assigned by the store to a row inserted without an
explicit `word_id` (autoincrement: one more than the largest existing id). -/
def nextId (rows : List WordRow) : Int :=
  (rows.foldl (fun m r => max m r.word_id) 0) + 1

/-- Insert one parameter dictionary into the `words` table: keys naming
the columns `word_id`, `hash`, `value` are consumed, other keys are
ignored, and a missing primary key falls back to autoincrement. -/
def insertWordsRow (rows : List WordRow) (d : List (String × DVal)) : List WordRow :=
  let id : Int :=
    match alookup d "word_id" with
    | some (.i n) => n
    | _ => nextId rows
  let h : Nat :=
    match alookup d "hash" with
    | some (.i n) => n.toNat
    | _ => 0
  let v : String :=
    match alookup d "value" with
    | some (.s s) => s
    | _ => ""
  rows ++ [⟨id, h, v⟩]

/-- The parameter dictionary built by `_add_words_safe` (line 283):
`{'hash': ..., 'value': ...}`. -/
def safeVal (w : String) : List (String × DVal) :=
  [("hash", .i (_hash w : Int)), ("value", .s w)]

/-- The parameter dictionary built by `_add_words_unsafe` (line 304):
`{'wordid': ..., 'hash': ..., 'value': ...}` — note the key `'wordid'`,
which does not name the `word_id` column. -/
def fastVal (id : Int) (w : String) : List (String × DVal) :=
  [("wordid", .i id), ("hash", .i (_hash w : Int)), ("value", .s w)]

/-- The scan predicate of `_word_id`: the row is in the word's hash bucket
and its value is the word. -/
def wordMatch (w : String) (r : WordRow) : Bool :=
  r.hash == _hash w && r.value == w

/-- `_word_id` (lines 258-270): scan the rows sharing the word's hash
bucket for an exact value match; `-1` when absent. -/
def _word_id (rows : List WordRow) (w : String) : Int :=
  match rows.find? (wordMatch w) with
  | some r => r.word_id
  | none => -1

/-- One iteration of `_add_words_safe` (lines 278-286): look the word up;
when absent, insert `{'hash','value'}` and use the store-assigned primary
key (`inserted_primary_key`). -/
def addWordSafe (rows : List WordRow) (w : String) : Int × List WordRow :=
  let i := _word_id rows w
  if i = -1 then (nextId rows, insertWordsRow rows (safeVal w))
  else (i, rows)

/-- `_add_words_safe` (lines 272-287). -/
def _add_words_safe (rows : List WordRow) : List String → List Int × List WordRow
  | [] => ([], rows)
  | w :: ws =>
    let p1 := addWordSafe rows w
    let p2 := _add_words_safe p1.2 ws
    (p1.1 :: p2.1, p2.2)

/-- The word-index state: the `words` table plus the fast-mode in-memory
cache (`word_dict`, `word_id_max`); `word_id_max = -1` means the cache
has not been built yet (`__init__`, line 191). -/
structure WState where
  rows : List WordRow
  dict : List (String × Int)
  idMax : Int
deriving DecidableEq, Repr

/-- `_fetch_words` (lines 241-250): load the whole word table into a dict
and record the maximum id (`0` for an empty dict). -/
def _fetch_words (st : WState) : WState :=
  let d := st.rows.foldl (fun d r => pyDictSet d r.value r.word_id) []
  { rows := st.rows
    dict := d
    idMax :=
      match d.map Prod.snd with
      | [] => 0
      | v :: vs => vs.foldl max v }

/-- The per-word loop of `_add_words_unsafe` (lines 299-304): assign
`word_id_max + 1` to each word not in the cache, recording the assignment
in the cache and in a parameter dictionary for the batched insert. -/
def fastLoop : WState → List String → WState × List (List (String × DVal))
  | st, [] => (st, [])
  | st, w :: ws =>
    match alookup st.dict w with
    | some _ => fastLoop st ws
    | none =>
      let m := st.idMax + 1
      let st1 : WState := ⟨st.rows, pyDictSet st.dict w m, m⟩
      let p := fastLoop st1 ws
      (p.1, fastVal m w :: p.2)

/-- `_add_words_unsafe` (lines 289-310), the fast single-writer method:
build the cache if absent, assign local ids to new words, push the new
rows in one batched insert, and read the result ids off the cache. -/
def addWordsFast (st : WState) (ws : List String) : List Int × WState :=
  let st0 := if st.idMax = -1 then _fetch_words st else st
  let p := fastLoop st0 ws
  let rows2 := if p.2.isEmpty then p.1.rows else p.2.foldl insertWordsRow p.1.rows
  (ws.map fun w => (alookup p.1.dict w).getD 0, ⟨rows2, p.1.dict, p.1.idMax⟩)

/-- A call of either word-adding method on the shared state. -/
inductive WOp where
  | safeAdd (ws : List String)
  | fastAdd (ws : List String)

/-- Run one word-adding call. -/
def runWOp (st : WState) : WOp → WState
  | .safeAdd ws => ⟨(_add_words_safe st.rows ws).2, st.dict, st.idMax⟩
  | .fastAdd ws => (addWordsFast st ws).2

/-- Run a sequence of word-adding calls. -/
def runWOps (st : WState) (ops : List WOp) : WState :=
  ops.foldl runWOp st

/-- The freshly constructed word-index state over a given table
(`__init__` sets `word_id_max = -1` and builds no dict). -/
def freshW (rows : List WordRow) : WState :=
  ⟨rows, [], -1⟩

/-! ### Helper lemmas on dictionaries, autoincrement and `_word_id` -/

theorem alookup_pyDictSet_self {β : Type} (d : List (String × β)) (k : String) (v : β) :
    alookup (pyDictSet d k v) k = some v := by
  induction d with
  | nil => simp [pyDictSet, alookup, List.find?]
  | cons kv d ih =>
    obtain ⟨k0, v0⟩ := kv
    by_cases h : k0 = k
    · simp [pyDictSet, alookup, List.find?, h]
    · simp only [pyDictSet, if_neg h]
      simpa [alookup, List.find?, h] using ih

theorem alookup_pyDictSet_other {β : Type} (d : List (String × β)) (k k' : String)
    (v : β) (h : k' ≠ k) :
    alookup (pyDictSet d k v) k' = alookup d k' := by
  induction d with
  | nil => simp [pyDictSet, alookup, List.find?, Ne.symm h]
  | cons kv d ih =>
    obtain ⟨k0, v0⟩ := kv
    by_cases h0 : k0 = k
    · subst h0
      simp [pyDictSet, alookup, List.find?, Ne.symm h]
    · by_cases h1 : k0 = k'
      · subst h1
        simp [pyDictSet, alookup, List.find?, h0]
      · simpa [pyDictSet, alookup, List.find?, h0, h1] using ih

theorem mem_pyDictSet {β : Type} (d : List (String × β)) (k : String) (v : β) :
    ∀ kv ∈ pyDictSet d k v, kv ∈ d ∨ kv = (k, v) := by
  induction d with
  | nil => simp [pyDictSet]
  | cons kv0 d ih =>
    obtain ⟨k0, v0⟩ := kv0
    by_cases h : k0 = k
    · subst h
      intro kv hkv
      rcases (by simpa [pyDictSet] using hkv) with h1 | h1
      · exact Or.inr (by simp [h1])
      · exact Or.inl (List.mem_cons_of_mem _ h1)
    · intro kv hkv
      rcases (by simpa [pyDictSet, h] using hkv) with h1 | h1
      · exact Or.inl (by simp [h1])
      · rcases ih kv h1 with h2 | h2
        · exact Or.inl (List.mem_cons_of_mem _ h2)
        · exact Or.inr h2

theorem le_foldl_max (l : List Int) (a : Int) : a ≤ l.foldl max a := by
  induction l generalizing a with
  | nil => exact le_refl a
  | cons b l ih => exact le_trans (le_max_left a b) (ih (max a b))

theorem mem_le_foldl_max (l : List Int) (a b : Int) (h : b ∈ l) : b ≤ l.foldl max a := by
  induction l generalizing a with
  | nil => cases h
  | cons c l ih =>
    rcases List.mem_cons.mp h with h1 | h1
    · subst h1
      exact le_trans (le_max_right a b) (le_foldl_max l (max a b))
    · exact ih (max a c) h1

theorem nextId_pos (rows : List WordRow) : 1 ≤ nextId rows := by
  have h0 : (0 : Int) ≤ rows.foldl (fun m r => max m r.word_id) 0 := by
    have : ∀ (l : List WordRow) (a : Int), a ≤ l.foldl (fun m r => max m r.word_id) a := by
      intro l
      induction l with
      | nil => intro a; exact le_refl a
      | cons r l ih => intro a; exact le_trans (le_max_left a r.word_id) (ih _)
    exact this rows 0
  unfold nextId
  omega

/-- The row appended by the safe method's insert. -/
theorem insertWordsRow_safeVal (rows : List WordRow) (w : String) :
    insertWordsRow rows (safeVal w) = rows ++ [⟨nextId rows, _hash w, w⟩] := by
  simp +decide [insertWordsRow, safeVal, alookup, List.find?]

/-- The row appended by the fast method's insert: the `'wordid'` key is
not consumed, so the primary key comes from autoincrement. -/
theorem insertWordsRow_fastVal (rows : List WordRow) (id : Int) (w : String) :
    insertWordsRow rows (fastVal id w) = rows ++ [⟨nextId rows, _hash w, w⟩] := by
  simp +decide [insertWordsRow, fastVal, alookup, List.find?]

/-- All ids in the table are nonnegative (true of every real table, whose
primary keys are positive). -/
def idsOK (rows : List WordRow) : Prop :=
  ∀ r ∈ rows, 0 ≤ r.word_id

theorem _word_id_append_of_found (rows : List WordRow) (r : WordRow) (w : String)
    (h : _word_id rows w ≠ -1) :
    _word_id (rows ++ [r]) w = _word_id rows w := by
  unfold _word_id at *
  cases hf : rows.find? (wordMatch w) with
  | none => rw [hf] at h; simp at h
  | some r0 => rw [List.find?_append, hf]; simp [hf]

theorem _word_id_insert_self (rows : List WordRow) (w : String)
    (hids : idsOK rows) (h : _word_id rows w = -1) :
    _word_id (rows ++ [(⟨nextId rows, _hash w, w⟩ : WordRow)]) w = nextId rows := by
  unfold _word_id at *
  cases hf : rows.find? (wordMatch w) with
  | none => rw [List.find?_append, hf]; simp [List.find?, wordMatch]
  | some r0 =>
    rw [hf] at h
    have := hids r0 (List.mem_of_find?_eq_some hf)
    simp at h
    omega

theorem _word_id_cases (rows : List WordRow) (w : String) (hids : idsOK rows) :
    _word_id rows w = -1 ∨ 0 ≤ _word_id rows w := by
  unfold _word_id
  cases hf : rows.find? (wordMatch w) with
  | none => exact Or.inl rfl
  | some r0 => exact Or.inr (hids r0 (List.mem_of_find?_eq_some hf))

/-! ### Safe mode: step and fold lemmas -/

theorem addWordSafe_spec (rows : List WordRow) (w : String) (hids : idsOK rows) :
    _word_id (addWordSafe rows w).2 w = (addWordSafe rows w).1 ∧
    (addWordSafe rows w).1 ≠ -1 ∧
    idsOK (addWordSafe rows w).2 ∧
    (∀ v, _word_id rows v ≠ -1 → _word_id (addWordSafe rows w).2 v = _word_id rows v) := by
  unfold addWordSafe
  by_cases hi : _word_id rows w = -1
  · rw [if_pos hi, insertWordsRow_safeVal]
    have hpos := nextId_pos rows
    refine ⟨_word_id_insert_self rows w hids hi, by omega, ?_, ?_⟩
    · intro r hr
      rcases List.mem_append.mp hr with h1 | h1
      · exact hids r h1
      · simp at h1; subst h1; simpa using by omega
    · intro v hv
      exact _word_id_append_of_found rows _ v hv
  · rw [if_neg hi]
    exact ⟨rfl, hi, hids, fun v _ => rfl⟩

theorem _add_words_safe_post (ws : List String) (rows : List WordRow) (hids : idsOK rows) :
    idsOK (_add_words_safe rows ws).2 ∧
    (∀ v, _word_id rows v ≠ -1 →
      _word_id (_add_words_safe rows ws).2 v = _word_id rows v) := by
  induction ws generalizing rows with
  | nil => exact ⟨hids, fun v _ => rfl⟩
  | cons w ws ih =>
    obtain ⟨hstep1, hstep2, hstep3, hstep4⟩ := addWordSafe_spec rows w hids
    obtain ⟨ih1, ih2⟩ := ih (addWordSafe rows w).2 hstep3
    refine ⟨ih1, fun v hv => ?_⟩
    rw [show (_add_words_safe rows (w :: ws)).2
          = (_add_words_safe (addWordSafe rows w).2 ws).2 from rfl]
    rw [ih2 v (by rw [hstep4 v hv]; exact hv), hstep4 v hv]

theorem _add_words_safe_resolves (ws : List String) (rows : List WordRow)
    (i : Nat) (w : String) (hids : idsOK rows) (hget : ws[i]? = some w) :
    ∃ id, (_add_words_safe rows ws).1[i]? = some id ∧ id ≠ -1 ∧
      _word_id (_add_words_safe rows ws).2 w = id := by
  induction ws generalizing rows i with
  | nil => simp at hget
  | cons w0 ws ih =>
    obtain ⟨hstep1, hstep2, hstep3, hstep4⟩ := addWordSafe_spec rows w0 hids
    cases i with
    | zero =>
      have hw : w0 = w := by simpa using hget
      subst hw
      obtain ⟨hpost1, hpost2⟩ := _add_words_safe_post ws (addWordSafe rows w0).2 hstep3
      refine ⟨(addWordSafe rows w0).1, by simp [_add_words_safe], hstep2, ?_⟩
      rw [show (_add_words_safe rows (w0 :: ws)).2
            = (_add_words_safe (addWordSafe rows w0).2 ws).2 from rfl]
      rw [hpost2 w0 (by rw [hstep1]; exact hstep2), hstep1]
    | succ i =>
      have hget' : ws[i]? = some w := by simpa using hget
      obtain ⟨id, h1, h2, h3⟩ := ih (addWordSafe rows w0).2 i hstep3 hget'
      exact ⟨id, by simpa [_add_words_safe] using h1, h2, h3⟩

theorem _add_words_safe_stable (ws : List String) (rows : List WordRow)
    (j : Nat) (w : String) (hids : idsOK rows) (hfound : _word_id rows w ≠ -1)
    (hget : ws[j]? = some w) :
    (_add_words_safe rows ws).1[j]? = some (_word_id rows w) := by
  induction ws generalizing rows j with
  | nil => simp at hget
  | cons w0 ws ih =>
    obtain ⟨hstep1, hstep2, hstep3, hstep4⟩ := addWordSafe_spec rows w0 hids
    cases j with
    | zero =>
      have hw : w0 = w := by simpa using hget
      subst hw
      have : (addWordSafe rows w0).1 = _word_id rows w0 := by
        unfold addWordSafe
        rw [if_neg hfound]
      simp [_add_words_safe, this]
    | succ j =>
      have hget' : ws[j]? = some w := by simpa using hget
      have := ih (addWordSafe rows w0).2 j hstep3
        (by rw [hstep4 w hfound]; exact hfound) hget'
      simpa [_add_words_safe, hstep4 w hfound] using this

/-! ### Fast mode: cache lemmas -/

theorem fastLoop_cons_found (st : WState) (w0 : String) (ws : List String) (v0 : Int)
    (h : alookup st.dict w0 = some v0) :
    fastLoop st (w0 :: ws) = fastLoop st ws := by
  show (match alookup st.dict w0 with
    | some _ => fastLoop st ws
    | none =>
      let m := st.idMax + 1
      let st1 : WState := ⟨st.rows, pyDictSet st.dict w0 m, m⟩
      let p := fastLoop st1 ws
      (p.1, fastVal m w0 :: p.2)) = fastLoop st ws
  rw [h]

theorem fastLoop_cons_new (st : WState) (w0 : String) (ws : List String)
    (h : alookup st.dict w0 = none) :
    fastLoop st (w0 :: ws)
      = ((fastLoop ⟨st.rows, pyDictSet st.dict w0 (st.idMax + 1), st.idMax + 1⟩ ws).1,
         fastVal (st.idMax + 1) w0
           :: (fastLoop ⟨st.rows, pyDictSet st.dict w0 (st.idMax + 1), st.idMax + 1⟩ ws).2) := by
  show (match alookup st.dict w0 with
    | some _ => fastLoop st ws
    | none =>
      let m := st.idMax + 1
      let st1 : WState := ⟨st.rows, pyDictSet st.dict w0 m, m⟩
      let p := fastLoop st1 ws
      (p.1, fastVal m w0 :: p.2)) = _
  rw [h]

theorem fastLoop_spec (ws : List String) (st : WState) :
    (fastLoop st ws).1.rows = st.rows ∧
    st.idMax ≤ (fastLoop st ws).1.idMax ∧
    (∀ k v, alookup st.dict k = some v → alookup (fastLoop st ws).1.dict k = some v) ∧
    (∀ w ∈ ws, ∃ v, alookup (fastLoop st ws).1.dict w = some v) := by
  induction ws generalizing st with
  | nil => exact ⟨rfl, le_refl _, fun k v h => h, by simp⟩
  | cons w0 ws ih =>
    cases h : alookup st.dict w0 with
    | some v0 =>
      rw [fastLoop_cons_found st w0 ws v0 h]
      obtain ⟨ih1, ih2, ih3, ih4⟩ := ih st
      refine ⟨ih1, ih2, ih3, fun w hw => ?_⟩
      rcases List.mem_cons.mp hw with h1 | h1
      · exact ⟨v0, h1 ▸ ih3 w0 v0 h⟩
      · exact ih4 w h1
    | none =>
      rw [fastLoop_cons_new st w0 ws h]
      obtain ⟨ih1, ih2, ih3, ih4⟩ :=
        ih ⟨st.rows, pyDictSet st.dict w0 (st.idMax + 1), st.idMax + 1⟩
      refine ⟨ih1, le_trans (by simp) ih2, fun k v hk => ?_, fun w hw => ?_⟩
      · have hkne : k ≠ w0 := fun he => by rw [he, h] at hk; cases hk
        refine ih3 k v ?_
        simpa [alookup_pyDictSet_other st.dict w0 k _ hkne] using hk
      · rcases List.mem_cons.mp hw with h1 | h1
        · subst h1
          exact ⟨st.idMax + 1, ih3 w (st.idMax + 1)
            (alookup_pyDictSet_self st.dict w _)⟩
        · exact ih4 w h1

/-- Every key of a dictionary built by folding `pyDictSet` over rows is
either inherited or carries some row's id. -/
theorem mem_foldl_pyDictSet (rows : List WordRow) (d0 : List (String × Int)) :
    ∀ kv ∈ rows.foldl (fun d r => pyDictSet d r.value r.word_id) d0,
      kv ∈ d0 ∨ ∃ r ∈ rows, kv.2 = r.word_id := by
  induction rows generalizing d0 with
  | nil => intro kv h; exact Or.inl h
  | cons r rows ih =>
    intro kv h
    rcases ih (pyDictSet d0 r.value r.word_id) kv h with h1 | h1
    · rcases mem_pyDictSet d0 r.value r.word_id kv h1 with h2 | h2
      · exact Or.inl h2
      · exact Or.inr ⟨r, List.mem_cons_self r rows, by rw [h2]⟩
    · obtain ⟨r1, hr1, hr2⟩ := h1
      exact Or.inr ⟨r1, List.mem_cons_of_mem r hr1, hr2⟩

/-- Keys present in a dictionary survive further `pyDictSet` folding. -/
theorem alookup_foldl_pyDictSet (rows : List WordRow) (d0 : List (String × Int))
    (k : String) (h : alookup d0 k ≠ none) :
    alookup (rows.foldl (fun d r => pyDictSet d r.value r.word_id) d0) k ≠ none := by
  induction rows generalizing d0 with
  | nil => exact h
  | cons r rows ih =>
    refine ih (pyDictSet d0 r.value r.word_id) ?_
    by_cases he : k = r.value
    · subst he
      rw [alookup_pyDictSet_self]
      simp
    · rw [alookup_pyDictSet_other d0 r.value k _ he]
      exact h

/-- Every table value is a key of the dictionary built by `_fetch_words`. -/
theorem fetch_covers (st : WState) :
    ∀ r ∈ st.rows, alookup (_fetch_words st).dict r.value ≠ none := by
  show ∀ r ∈ st.rows,
    alookup (st.rows.foldl (fun d r => pyDictSet d r.value r.word_id) []) r.value ≠ none
  generalize st.rows = rows
  have main : ∀ (rows : List WordRow) (d0 : List (String × Int)) (r : WordRow),
      r ∈ rows → alookup (rows.foldl (fun d r => pyDictSet d r.value r.word_id) d0) r.value ≠ none := by
    intro rows
    induction rows with
    | nil => intro d0 r h; cases h
    | cons r0 rows ih =>
      intro d0 r h
      rcases List.mem_cons.mp h with h1 | h1
      · subst h1
        refine alookup_foldl_pyDictSet rows _ r.value ?_
        rw [alookup_pyDictSet_self]
        simp
      · exact ih _ r h1
  exact fun r h => main rows [] r h

/-- Every value of the `_fetch_words` dictionary is bounded by the
computed maximum. -/
theorem fetch_bound (st : WState) :
    ∀ kv ∈ (_fetch_words st).dict, kv.2 ≤ (_fetch_words st).idMax := by
  intro kv hkv
  show kv.2 ≤ (match ((_fetch_words st).dict.map Prod.snd) with
    | [] => (0 : Int)
    | v :: vs => vs.foldl max v)
  cases hd : (_fetch_words st).dict.map Prod.snd with
  | nil =>
    rw [List.map_eq_nil_iff] at hd
    rw [hd] at hkv
    cases hkv
  | cons v vs =>
    have hv2 : kv.2 ∈ v :: vs := by
      rw [← hd]
      exact List.mem_map_of_mem Prod.snd hkv
    rcases List.mem_cons.mp hv2 with h1 | h1
    · rw [h1]; exact le_foldl_max vs v
    · exact mem_le_foldl_max vs v kv.2 h1

/-- When the table ids are nonnegative, `_fetch_words` seeds a
nonnegative maximum. -/
theorem fetch_idMax_nonneg (st : WState) (hids : idsOK st.rows) :
    0 ≤ (_fetch_words st).idMax := by
  show (0 : Int) ≤ (match ((_fetch_words st).dict.map Prod.snd) with
    | [] => (0 : Int)
    | v :: vs => vs.foldl max v)
  cases hd : (_fetch_words st).dict.map Prod.snd with
  | nil => exact le_refl 0
  | cons v vs =>
    have hv : v ∈ (_fetch_words st).dict.map Prod.snd := by rw [hd]; simp
    obtain ⟨kv, hkv, hkv2⟩ := List.mem_map.mp hv
    have h0 : 0 ≤ v := by
      rcases mem_foldl_pyDictSet st.rows [] kv hkv with h1 | h1
      · cases h1
      · obtain ⟨r, hr, hr2⟩ := h1
        rw [← hkv2, hr2]
        exact hids r hr
    exact le_trans h0 (le_foldl_max vs v)

theorem addWordsFast_res (st : WState) (ws : List String) :
    (addWordsFast st ws).1
      = ws.map fun w =>
          (alookup (fastLoop (if st.idMax = -1 then _fetch_words st else st) ws).1.dict w).getD 0 :=
  rfl

theorem addWordsFast_dict (st : WState) (ws : List String) :
    (addWordsFast st ws).2.dict
      = (fastLoop (if st.idMax = -1 then _fetch_words st else st) ws).1.dict :=
  rfl

theorem addWordsFast_idMax (st : WState) (ws : List String) :
    (addWordsFast st ws).2.idMax
      = (fastLoop (if st.idMax = -1 then _fetch_words st else st) ws).1.idMax :=
  rfl

/-- Claim C3: in both modes, resolving the same word twice on the same
`Database` instance (two calls of the safe method, or two calls of the
fast method) returns the same id both times.  The table is assumed to
hold nonnegative ids (as real autoincrement primary keys are) and, for
the fast method, the instance starts with the cache unbuilt
(`word_id_max = -1`, as the constructor leaves it). -/
theorem c3_resolve_same_id :
    (∀ (rows : List WordRow) (ws1 ws2 : List String) (i j : Nat) (w : String),
      idsOK rows → ws1[i]? = some w → ws2[j]? = some w →
      ∃ id, (_add_words_safe rows ws1).1[i]? = some id ∧
        (_add_words_safe (_add_words_safe rows ws1).2 ws2).1[j]? = some id) ∧
    (∀ (st : WState) (ws1 ws2 : List String) (i j : Nat) (w : String),
      st.idMax = -1 → idsOK st.rows → ws1[i]? = some w → ws2[j]? = some w →
      ∃ id, (addWordsFast st ws1).1[i]? = some id ∧
        (addWordsFast (addWordsFast st ws1).2 ws2).1[j]? = some id) := by
  constructor
  · intro rows ws1 ws2 i j w hids h1 h2
    obtain ⟨id, hr1, hne, hwid⟩ := _add_words_safe_resolves ws1 rows i w hids h1
    obtain ⟨hids1, _⟩ := _add_words_safe_post ws1 rows hids
    refine ⟨id, hr1, ?_⟩
    have hst := _add_words_safe_stable ws2 (_add_words_safe rows ws1).2 j w hids1
      (by rw [hwid]; exact hne) h2
    rw [hwid] at hst
    exact hst
  · intro st ws1 ws2 i j w hm hids h1 h2
    have hw1 : w ∈ ws1 := List.getElem?_mem h1
    have hif : (if st.idMax = -1 then _fetch_words st else st) = _fetch_words st :=
      if_pos hm
    have h0 : 0 ≤ (_fetch_words st).idMax := fetch_idMax_nonneg st hids
    obtain ⟨_, hle1, _, hall1⟩ := fastLoop_spec ws1 (_fetch_words st)
    obtain ⟨v, hv⟩ := hall1 w hw1
    refine ⟨v, ?_, ?_⟩
    · rw [addWordsFast_res, hif, List.getElem?_map, h1]
      simp [hv]
    · have hs1d : (addWordsFast st ws1).2.dict = (fastLoop (_fetch_words st) ws1).1.dict := by
        rw [addWordsFast_dict, hif]
      have hs1m : (addWordsFast st ws1).2.idMax
          = (fastLoop (_fetch_words st) ws1).1.idMax := by
        rw [addWordsFast_idMax, hif]
      have hne2 : ¬ (addWordsFast st ws1).2.idMax = -1 := by
        rw [hs1m]; omega
      obtain ⟨_, _, hpres2, _⟩ := fastLoop_spec ws2 (addWordsFast st ws1).2
      have hv2 : alookup (fastLoop (addWordsFast st ws1).2 ws2).1.dict w = some v := by
        apply hpres2
        rw [hs1d]
        exact hv
      rw [addWordsFast_res, if_neg hne2, List.getElem?_map, h2]
      simp [hv2]

/-- Witness for C3: on a fresh empty database, `"cat"` resolves to the
same id in a first call and in a later call, in both modes. -/
theorem c3_resolve_same_id_witness :
    (∃ id, (_add_words_safe [] ["cat"]).1[0]? = some id ∧
      (_add_words_safe (_add_words_safe [] ["cat"]).2 ["dog", "cat"]).1[1]? = some id) ∧
    (∃ id, (addWordsFast (freshW []) ["cat"]).1[0]? = some id ∧
      (addWordsFast (addWordsFast (freshW []) ["cat"]).2 ["dog", "cat"]).1[1]? = some id) :=
  ⟨c3_resolve_same_id.1 [] ["cat"] ["dog", "cat"] 0 1 "cat" (by simp [idsOK]) (by decide)
     (by decide),
   c3_resolve_same_id.2 (freshW []) ["cat"] ["dog", "cat"] 0 1 "cat" rfl (by simp [idsOK, freshW])
     (by decide) (by decide)⟩

/-- The index the fast method consults before a call: the in-memory cache
when built, otherwise the word table as `_fetch_words` is about to load
it. -/
def preIndex (st : WState) : List (String × Int) :=
  if st.idMax = -1 then (_fetch_words st).dict else st.dict

theorem fastLoop_fresh (ws : List String) (st : WState)
    (hbound : ∀ kv ∈ st.dict, kv.2 ≤ st.idMax)
    (hnodup : ws.Nodup)
    (habs : ∀ w ∈ ws, alookup st.dict w = none) :
    List.Pairwise (· < ·) (ws.map fun w => (alookup (fastLoop st ws).1.dict w).getD 0) ∧
    (∀ w ∈ ws, ∃ v, alookup (fastLoop st ws).1.dict w = some v ∧ st.idMax < v) ∧
    (∀ kv ∈ (fastLoop st ws).1.dict, kv.2 ≤ (fastLoop st ws).1.idMax) := by
  induction ws generalizing st with
  | nil => exact ⟨List.Pairwise.nil, by simp, hbound⟩
  | cons w0 ws ih =>
    have h : alookup st.dict w0 = none := habs w0 (List.mem_cons_self w0 ws)
    rw [fastLoop_cons_new st w0 ws h]
    set st1 : WState := ⟨st.rows, pyDictSet st.dict w0 (st.idMax + 1), st.idMax + 1⟩
      with hst1
    have hm1 : st1.idMax = st.idMax + 1 := rfl
    have hd1 : st1.dict = pyDictSet st.dict w0 (st.idMax + 1) := rfl
    have hb1 : ∀ kv ∈ st1.dict, kv.2 ≤ st1.idMax := by
      intro kv hkv
      rw [hm1]
      rcases mem_pyDictSet st.dict w0 (st.idMax + 1) kv (hd1 ▸ hkv) with h1 | h1
      · have := hbound kv h1; omega
      · rw [h1]
    have hn1 : ws.Nodup := (List.nodup_cons.mp hnodup).2
    have hw0 : w0 ∉ ws := (List.nodup_cons.mp hnodup).1
    have ha1 : ∀ w ∈ ws, alookup st1.dict w = none := by
      intro w hw
      have hne : w ≠ w0 := fun he => hw0 (he ▸ hw)
      rw [hd1, alookup_pyDictSet_other st.dict w0 w _ hne]
      exact habs w (List.mem_cons_of_mem w0 hw)
    obtain ⟨ihp, ihv, ihb⟩ := ih st1 hb1 hn1 ha1
    obtain ⟨_, _, hpres, _⟩ := fastLoop_spec ws st1
    have hw0v : alookup (fastLoop st1 ws).1.dict w0 = some (st.idMax + 1) :=
      hpres w0 _ (hd1 ▸ alookup_pyDictSet_self st.dict w0 _)
    refine ⟨?_, ?_, ihb⟩
    · rw [List.map_cons]
      refine List.Pairwise.cons ?_ ihp
      intro b hb
      obtain ⟨w, hwmem, hwb⟩ := List.mem_map.mp hb
      obtain ⟨v, hv1, hv2⟩ := ihv w hwmem
      rw [← hwb, hv1, hw0v]
      rw [hm1] at hv2
      simpa using hv2
    · intro w hw
      rcases List.mem_cons.mp hw with h1 | h1
      · subst h1
        exact ⟨st.idMax + 1, hw0v, by omega⟩
      · obtain ⟨v, hv1, hv2⟩ := ihv w h1
        rw [hm1] at hv2
        exact ⟨v, hv1, by omega⟩

/-- Claim C4: in fast mode, resolving pairwise-distinct words none of
which is in the index yields pairwise-distinct ids, none equal to an id
already present, thanks to the local counter seeded from the maximum
existing id. -/
theorem c4_fast_distinct_fresh_ids (st : WState) (ws : List String)
    (hInv : st.idMax = -1 ∨ ∀ kv ∈ st.dict, kv.2 ≤ st.idMax)
    (hnodup : ws.Nodup)
    (habs : ∀ w ∈ ws, alookup (preIndex st) w = none) :
    (addWordsFast st ws).1.Nodup ∧
    (∀ id ∈ (addWordsFast st ws).1, ∀ kv ∈ preIndex st, kv.2 ≠ id) := by
  have hd : (if st.idMax = -1 then _fetch_words st else st).dict = preIndex st := by
    by_cases hm : st.idMax = -1 <;> simp [preIndex, hm]
  have hb : ∀ kv ∈ (if st.idMax = -1 then _fetch_words st else st).dict,
      kv.2 ≤ (if st.idMax = -1 then _fetch_words st else st).idMax := by
    by_cases hm : st.idMax = -1
    · rw [if_pos hm]
      exact fetch_bound st
    · rw [if_neg hm]
      simpa [hm] using hInv.resolve_left hm
  obtain ⟨hp, hv, _⟩ := fastLoop_fresh ws (if st.idMax = -1 then _fetch_words st else st)
    hb hnodup (by rw [hd]; exact habs)
  constructor
  · rw [addWordsFast_res]
    exact List.Pairwise.imp (fun hab => ne_of_lt hab) hp
  · intro id hid kv hkv
    rw [addWordsFast_res] at hid
    obtain ⟨w, hwmem, hwid⟩ := List.mem_map.mp hid
    obtain ⟨v, hv1, hv2⟩ := hv w hwmem
    rw [← hwid, hv1]
    have hkb := hb kv (by rw [hd]; exact hkv)
    simp only [Option.getD_some]
    omega

/-- Witness for C4: two new words on a table holding one word with id 5
get the distinct fresh ids 6 and 7. -/
theorem c4_fast_distinct_fresh_ids_witness :
    (addWordsFast (freshW [⟨5, 1234, "x"⟩]) ["cat", "dog"]).1.Nodup ∧
    (∀ id ∈ (addWordsFast (freshW [⟨5, 1234, "x"⟩]) ["cat", "dog"]).1,
      ∀ kv ∈ preIndex (freshW [⟨5, 1234, "x"⟩]), kv.2 ≠ id) :=
  c4_fast_distinct_fresh_ids (freshW [⟨5, 1234, "x"⟩]) ["cat", "dog"]
    (Or.inl rfl) (by decide) (by decide)

/-- Claim C2, evaluated at a failing input.  The fast method's batched
insert carries the locally assigned id only under the key `'wordid'`,
which names no column of the `words` table, so the insert does not set
`word_id` and the store assigns it.  After `fast ["a"]; safe ["b"];
fast ["c"]` on a fresh empty database, the local mapping records id 2 for
`"c"` (and the call returns 2), while the row persisted for `"c"` has the
storage-assigned `word_id` 3. -/
theorem c2_fast_persisted_id_bug :
    (∀ (id : Int) (w : String), alookup (fastVal id w) "word_id" = none) ∧
    alookup (runWOps (freshW []) [.fastAdd ["a"], .safeAdd ["b"], .fastAdd ["c"]]).dict "c"
      = some 2 ∧
    ((runWOps (freshW []) [.fastAdd ["a"], .safeAdd ["b"], .fastAdd ["c"]]).rows.find?
        fun r => r.value = "c")
      = some ⟨3, 4655, "c"⟩ := by
  refine ⟨fun id w => ?_, by decide, by decide⟩
  simp +decide [fastVal, alookup, List.find?]

/-- Claim C5, refuted at a concrete input: interleaving the two methods
on one instance duplicates a value.  `fast ["a"]` builds the in-memory
cache; `safe ["b"]` then inserts `"b"` directly into the table; the now
stale cache makes `fast ["b"]` insert a second row with value `"b"`. -/
theorem c5_mixed_modes_duplicate_value :
    ((runWOps (freshW []) [.fastAdd ["a"], .safeAdd ["b"], .fastAdd ["b"]]).rows.map
        fun r => r.value).count "b" = 2 ∧
    ¬ ((runWOps (freshW []) [.fastAdd ["a"], .safeAdd ["b"], .fastAdd ["b"]]).rows.map
        fun r => r.value).Nodup := by
  exact ⟨by decide, by decide⟩

/-! ### Same-mode uniqueness (amended C5) -/

/-- At most one row per normalized value. -/
def uniqueValues (rows : List WordRow) : Prop :=
  (rows.map fun r => r.value).Nodup

/-- Every row's hash column holds the hash of its value (true of every
row the system writes). -/
def hashOK (rows : List WordRow) : Prop :=
  ∀ r ∈ rows, r.hash = _hash r.value

theorem _word_id_none (rows : List WordRow) (w : String) (hids : idsOK rows)
    (h : _word_id rows w = -1) :
    ∀ r ∈ rows, wordMatch w r = false := by
  unfold _word_id at h
  cases hf : rows.find? (wordMatch w) with
  | none =>
    intro r hr
    exact Bool.not_eq_true _ ▸ (List.find?_eq_none.mp hf r hr)
  | some r0 =>
    rw [hf] at h
    have := hids r0 (List.mem_of_find?_eq_some hf)
    simp at h
    omega

theorem addWordSafe_wf (rows : List WordRow) (w : String)
    (hu : uniqueValues rows) (hh : hashOK rows) (hi : idsOK rows) :
    uniqueValues (addWordSafe rows w).2 ∧ hashOK (addWordSafe rows w).2 ∧
      idsOK (addWordSafe rows w).2 := by
  unfold addWordSafe
  by_cases hcase : _word_id rows w = -1
  · rw [if_pos hcase, insertWordsRow_safeVal]
    have habs : ∀ r ∈ rows, r.value ≠ w := by
      intro r hr he
      have hm := _word_id_none rows w hi hcase r hr
      rw [wordMatch] at hm
      simp [he, hh r hr] at hm
    refine ⟨?_, ?_, ?_⟩
    · unfold uniqueValues
      rw [List.map_append, List.nodup_append]
      refine ⟨hu, by simp, ?_⟩
      intro a ha hb
      obtain ⟨r, hr, hrv⟩ := List.mem_map.mp ha
      simp at hb
      exact habs r hr (by rw [hrv, hb])
    · intro r hr
      rcases List.mem_append.mp hr with h1 | h1
      · exact hh r h1
      · simp at h1
        rw [h1]
    · intro r hr
      rcases List.mem_append.mp hr with h1 | h1
      · exact hi r h1
      · simp at h1
        rw [h1]
        have := nextId_pos rows
        simp
        omega
  · rw [if_neg hcase]
    exact ⟨hu, hh, hi⟩

theorem _add_words_safe_wf (ws : List String) (rows : List WordRow)
    (hu : uniqueValues rows) (hh : hashOK rows) (hi : idsOK rows) :
    uniqueValues (_add_words_safe rows ws).2 ∧ hashOK (_add_words_safe rows ws).2 ∧
      idsOK (_add_words_safe rows ws).2 := by
  induction ws generalizing rows with
  | nil => exact ⟨hu, hh, hi⟩
  | cons w ws ih =>
    obtain ⟨h1, h2, h3⟩ := addWordSafe_wf rows w hu hh hi
    exact ih (addWordSafe rows w).2 h1 h2 h3

/-- The value carried by a parameter dictionary. -/
def dValue (d : List (String × DVal)) : String :=
  match alookup d "value" with
  | some (.s s) => s
  | _ => ""

theorem dValue_fastVal (id : Int) (w : String) : dValue (fastVal id w) = w := by
  simp +decide [dValue, fastVal, alookup, List.find?]

/-- The new words collected by the fast loop: pairwise distinct, absent
from the starting cache, of the shape `fastVal`, and all among the input
words. -/
theorem fastLoop_newWords (ws : List String) (st : WState) :
    ((fastLoop st ws).2.map dValue).Nodup ∧
    (∀ x ∈ (fastLoop st ws).2.map dValue, alookup st.dict x = none) ∧
    (∀ d ∈ (fastLoop st ws).2, ∃ id, d = fastVal id (dValue d)) ∧
    (∀ x ∈ (fastLoop st ws).2.map dValue, x ∈ ws) := by
  induction ws generalizing st with
  | nil => exact ⟨by simp [fastLoop], by simp [fastLoop], by simp [fastLoop], by simp [fastLoop]⟩
  | cons w0 ws ih =>
    cases h : alookup st.dict w0 with
    | some v0 =>
      rw [fastLoop_cons_found st w0 ws v0 h]
      obtain ⟨ih1, ih2, ih3, ih4⟩ := ih st
      exact ⟨ih1, ih2, ih3, fun x hx => List.mem_cons_of_mem w0 (ih4 x hx)⟩
    | none =>
      rw [fastLoop_cons_new st w0 ws h]
      set st1 : WState := ⟨st.rows, pyDictSet st.dict w0 (st.idMax + 1), st.idMax + 1⟩
        with hst1
      have hd1 : st1.dict = pyDictSet st.dict w0 (st.idMax + 1) := rfl
      obtain ⟨ih1, ih2, ih3, ih4⟩ := ih st1
      have habs : ∀ x ∈ (fastLoop st1 ws).2.map dValue, alookup st.dict x = none := by
        intro x hx
        by_cases he : x = w0
        · have := ih2 x hx
          rw [hd1, he, alookup_pyDictSet_self] at this
          cases this
        · have := ih2 x hx
          rw [hd1, alookup_pyDictSet_other st.dict w0 x _ he] at this
          exact this
      refine ⟨?_, ?_, ?_, ?_⟩
      · rw [List.map_cons, dValue_fastVal, List.nodup_cons]
        refine ⟨fun hmem => ?_, ih1⟩
        have := ih2 w0 hmem
        rw [hd1, alookup_pyDictSet_self] at this
        cases this
      · intro x hx
        rw [List.map_cons, dValue_fastVal] at hx
        rcases List.mem_cons.mp hx with h1 | h1
        · rw [h1]; exact h
        · exact habs x h1
      · intro d hd
        rcases List.mem_cons.mp hd with h1 | h1
        · exact ⟨st.idMax + 1, by rw [h1, dValue_fastVal]⟩
        · exact ih3 d h1
      · intro x hx
        rw [List.map_cons, dValue_fastVal] at hx
        rcases List.mem_cons.mp hx with h1 | h1
        · rw [h1]; exact List.mem_cons_self w0 ws
        · exact List.mem_cons_of_mem w0 (ih4 x h1)

/-- Folding the fast method's batched insert appends exactly the new
words' values. -/
theorem foldl_insert_values (vs : List (List (String × DVal))) (rows : List WordRow)
    (h : ∀ d ∈ vs, ∃ id, d = fastVal id (dValue d)) :
    ((vs.foldl insertWordsRow rows).map fun r => r.value)
      = (rows.map fun r => r.value) ++ vs.map dValue := by
  induction vs generalizing rows with
  | nil => simp
  | cons d vs ih =>
    obtain ⟨id, hd⟩ := h d (List.mem_cons_self d vs)
    have hins : insertWordsRow rows d
        = rows ++ [⟨nextId rows, _hash (dValue d), dValue d⟩] := by
      rw [hd, insertWordsRow_fastVal, dValue_fastVal]
    rw [List.foldl_cons, hins,
      ih _ (fun d' hd' => h d' (List.mem_cons_of_mem d hd'))]
    simp

/-- Every table value is a key of the in-memory cache. -/
def coverOK (st : WState) : Prop :=
  ∀ r ∈ st.rows, alookup st.dict r.value ≠ none

theorem addWordsFast_wf (st : WState) (ws : List String)
    (hu : uniqueValues st.rows) (hc : st.idMax = -1 ∨ coverOK st) :
    uniqueValues (addWordsFast st ws).2.rows ∧
    ((addWordsFast st ws).2.idMax = -1 ∨ coverOK (addWordsFast st ws).2) := by
  have hrows0 : (if st.idMax = -1 then _fetch_words st else st).rows = st.rows := by
    by_cases hm : st.idMax = -1 <;> simp [_fetch_words, hm]
  have hcov0 : coverOK (if st.idMax = -1 then _fetch_words st else st) := by
    by_cases hm : st.idMax = -1
    · rw [if_pos hm]
      exact fun r hr => fetch_covers st r hr
    · rw [if_neg hm]
      exact hc.resolve_left hm
  set st0 := if st.idMax = -1 then _fetch_words st else st with hst0
  obtain ⟨hlrows, _, hpres, hall⟩ := fastLoop_spec ws st0
  obtain ⟨hn1, hn2, hn3, hn4⟩ := fastLoop_newWords ws st0
  have hdict2 : (addWordsFast st ws).2.dict = (fastLoop st0 ws).1.dict := rfl
  have hrows2 : (addWordsFast st ws).2.rows
      = (if (fastLoop st0 ws).2.isEmpty then (fastLoop st0 ws).1.rows
         else (fastLoop st0 ws).2.foldl insertWordsRow (fastLoop st0 ws).1.rows) := rfl
  have hvals : ((addWordsFast st ws).2.rows.map fun r => r.value)
      = (st.rows.map fun r => r.value) ++ (fastLoop st0 ws).2.map dValue := by
    rw [hrows2]
    cases he : (fastLoop st0 ws).2 with
    | nil => simp [hlrows, hrows0]
    | cons d vs =>
      rw [if_neg (by simp [he])]
      rw [← he, foldl_insert_values _ _ hn3, hlrows, hrows0]
  have hpresne : ∀ x, alookup st0.dict x ≠ none →
      alookup (fastLoop st0 ws).1.dict x ≠ none := by
    intro x hx
    cases hv : alookup st0.dict x with
    | none => exact absurd hv hx
    | some v => rw [hpres x v hv]; simp
  constructor
  · unfold uniqueValues
    rw [hvals, List.nodup_append]
    refine ⟨hu, hn1, ?_⟩
    intro a ha hb
    obtain ⟨r, hr, hrv⟩ := List.mem_map.mp ha
    have h1 := hn2 a hb
    have h2 := hcov0 r (hrows0 ▸ hr)
    rw [hrv] at h2
    exact h2 h1
  · refine Or.inr ?_
    intro r hr
    rw [hdict2]
    have hmem : r.value ∈ ((addWordsFast st ws).2.rows.map fun r => r.value) :=
      List.mem_map_of_mem _ hr
    rw [hvals] at hmem
    rcases List.mem_append.mp hmem with h1 | h1
    · obtain ⟨r1, hr1, hv1⟩ := List.mem_map.mp h1
      refine hpresne r.value ?_
      rw [← hv1]
      exact hcov0 r1 (hrows0 ▸ hr1)
    · obtain ⟨v, hv⟩ := hall r.value (hn4 r.value h1)
      rw [hv]
      simp

theorem runSafe_wf (wss : List (List String)) (st : WState)
    (hu : uniqueValues st.rows) (hh : hashOK st.rows) (hi : idsOK st.rows) :
    uniqueValues (runWOps st (wss.map WOp.safeAdd)).rows ∧
    hashOK (runWOps st (wss.map WOp.safeAdd)).rows ∧
    idsOK (runWOps st (wss.map WOp.safeAdd)).rows := by
  induction wss generalizing st with
  | nil => exact ⟨hu, hh, hi⟩
  | cons ws wss ih =>
    obtain ⟨h1, h2, h3⟩ := _add_words_safe_wf ws st.rows hu hh hi
    exact ih ⟨(_add_words_safe st.rows ws).2, st.dict, st.idMax⟩ h1 h2 h3

theorem runFast_wf (wss : List (List String)) (st : WState)
    (hu : uniqueValues st.rows) (hc : st.idMax = -1 ∨ coverOK st) :
    uniqueValues (runWOps st (wss.map WOp.fastAdd)).rows := by
  induction wss generalizing st with
  | nil => exact hu
  | cons ws wss ih =>
    obtain ⟨h1, h2⟩ := addWordsFast_wf st ws hu hc
    exact ih (addWordsFast st ws).2 h1 h2

/-- Amended claim C5: starting from a fresh instance over a well-formed
table (unique values, hash column consistent, nonnegative ids), any
sequence of calls all in safe mode, or all in fast mode, preserves the
at-most-one-row-per-value invariant.  (The original mixed-mode statement
fails: see the counterexample.) -/
theorem c5_same_mode_unique_values (rows : List WordRow)
    (hu : uniqueValues rows) (hh : hashOK rows) (hi : idsOK rows) :
    (∀ wss : List (List String),
      uniqueValues (runWOps (freshW rows) (wss.map WOp.safeAdd)).rows) ∧
    (∀ wss : List (List String),
      uniqueValues (runWOps (freshW rows) (wss.map WOp.fastAdd)).rows) :=
  ⟨fun wss => (runSafe_wf wss (freshW rows) hu hh hi).1,
   fun wss => runFast_wf wss (freshW rows) hu (Or.inl rfl)⟩

/-- Witness for the amended C5: two calls in each mode on a fresh empty
database leave the value column duplicate-free. -/
theorem c5_same_mode_unique_values_witness :
    uniqueValues (runWOps (freshW []) ([["cat"], ["cat", "dog"]].map WOp.safeAdd)).rows ∧
    uniqueValues (runWOps (freshW []) ([["cat"], ["cat", "dog"]].map WOp.fastAdd)).rows :=
  ⟨(c5_same_mode_unique_values [] (by simp [uniqueValues]) (by simp [hashOK])
      (by simp [idsOK])).1 [["cat"], ["cat", "dog"]],
   (c5_same_mode_unique_values [] (by simp [uniqueValues]) (by simp [hashOK])
      (by simp [idsOK])).2 [["cat"], ["cat", "dog"]]⟩

/-! ## Ingestion pipeline (Database methods and build, lines 196-365)

The metadata fetch (`get_meta`) and the text fetch inside `get_ebook` are
external collaborators (network + rdflib), supplied as oracles; `None`
models their caught failure paths.  Store writes are recorded as events;
the frequency batch handed to the background thread is a `queueEW` event,
applied to the store at some time after being queued. -/

/-- A row of the `authors` table. -/
structure ARow where
  author_id : Nat
  name : String
  birthdate : Option Int
  deathdate : Option Int
deriving DecidableEq, Repr

/-- A row of the `ebooks` table. -/
structure ERow where
  ebook_id : Nat
  title : String
  language : String
deriving DecidableEq, Repr

/-- A row of the `ebook_words` table. -/
structure EWRow where
  ebook_id : Nat
  word_id : Int
  frequency : Nat
deriving DecidableEq, Repr

/-- The dictionary returned by `get_meta` (lines 26-71). -/
structure Meta where
  title : String
  language : String
  author : List ARow
deriving DecidableEq, Repr

/-- The database state, together with the process-local word cache and
the configured concurrency mode. -/
structure DBState where
  ebooks : List ERow
  authors : List ARow
  ebookAuthors : List (Nat × Nat)
  words : WState
  ebookWords : List EWRow
  concurrency : Bool
deriving DecidableEq, Repr

/-- Store write events emitted by the pipeline. -/
inductive Ev where
  | insertEbook (e : ERow)
  | insertAuthor (a : ARow)
  | insertEbookAuthors (ps : List (Nat × Nat))
  | queueEW (rs : List EWRow)
deriving DecidableEq, Repr

/-- `_has_ebook` (lines 204-210). -/
def _has_ebook (st : DBState) (id : Nat) : Bool :=
  st.ebooks.any fun e => e.ebook_id == id

/-- `_has_author` (lines 196-202). -/
def _has_author (st : DBState) (aid : Nat) : Bool :=
  st.authors.any fun a => a.author_id == aid

/-- `_add_author` (lines 212-217): idempotent author insert. -/
def _add_author (st : DBState) (a : ARow) : DBState × List Ev :=
  if _has_author st a.author_id then (st, [])
  else ({ st with authors := st.authors ++ [a] }, [.insertAuthor a])

/-- `_add_ebook` (lines 219-239): insert the ebook row, then the missing
author rows, then (when there are authors) the association rows. -/
def _add_ebook (st : DBState) (id : Nat) (m : Meta) : DBState × List Ev :=
  let row : ERow := ⟨id, m.title, m.language⟩
  let st1 := { st with ebooks := st.ebooks ++ [row] }
  if m.author.isEmpty then (st1, [Ev.insertEbook row])
  else
    let p := m.author.foldl
      (fun (acc : DBState × List Ev) a =>
        let q := _add_author acc.1 a
        (q.1, acc.2 ++ q.2))
      (st1, [])
    let pairs := m.author.map fun a => (id, a.author_id)
    ({ p.1 with ebookAuthors := p.1.ebookAuthors ++ pairs },
     Ev.insertEbook row :: (p.2 ++ [Ev.insertEbookAuthors pairs]))

/-- The exception raised by `zip(*word_counts.items())` unpacking an
empty mapping (`ValueError: not enough values to unpack`). -/
inductive PyErr where
  | valueError
deriving DecidableEq, Repr

/-- Resolve the word ids in the configured mode (lines 318-321). -/
def resolveIds (st : DBState) (ws : List String) : List Int × WState :=
  if st.concurrency then
    let q := _add_words_safe st.words.rows ws
    (q.1, ⟨q.2, st.words.dict, st.words.idMax⟩)
  else addWordsFast st.words ws

/-- The frequency rows of one batch (lines 323-324). -/
def ewVals (id : Nat) (ids : List Int) (cs : List Nat) : List EWRow :=
  (ids.zip cs).map fun x => ⟨id, x.1, x.2⟩

/-- `_add_ebook_words` (lines 312-330): unpack the counts (raising on an
empty mapping), resolve word ids, and queue the frequency batch for the
background write thread. -/
def _add_ebook_words (st : DBState) (id : Nat) (counts : List (String × Nat)) :
    Except PyErr (DBState × List Ev) :=
  match counts with
  | [] => .error .valueError
  | _ :: _ =>
    let p := resolveIds st (counts.map fun kv => kv.1)
    let vals := ewVals id p.1 (counts.map fun kv => kv.2)
    .ok ({ st with words := p.2, ebookWords := st.ebookWords ++ vals },
         [.queueEW vals])

/-- The outcome of processing one ebook id. -/
structure StepOut where
  state : DBState
  events : List Ev
  counted : Bool
  err : Bool
deriving DecidableEq, Repr

/-- One iteration of `build`'s loop (lines 347-364) for a single ebook
id, with the external fetches supplied as oracles.  `get_ebook` is the
text fetch composed with the boundary extractor. -/
def processEbook (meta? : Option Meta) (text? : Option String)
    (tok : String → List String) (sw : List String)
    (st : DBState) (id : Nat) : StepOut :=
  if _has_ebook st id then ⟨st, [], false, false⟩
  else
    match meta? with
    | none => ⟨st, [], false, false⟩
    | some m =>
      if m.language ≠ "en" then ⟨st, [], false, false⟩
      else
        match text?.bind extractBodyStr with
        | none => ⟨st, [], false, false⟩
        | some body =>
          let p := _add_ebook st id m
          match _add_ebook_words p.1 id (count_words tok sw body) with
          | .error _ => ⟨p.1, p.2, false, true⟩
          | .ok q => ⟨q.1, p.2 ++ q.2, true, false⟩

/-- The outcome of a `build` run. -/
structure BuildOut where
  cnt : Nat
  state : DBState
  events : List Ev
  err : Bool
deriving DecidableEq, Repr

/-- The loop of `build` over `n` consecutive ids starting at `id`; an
escaping exception aborts the loop. -/
def buildAux (metaOr : Nat → Option Meta) (textOr : Nat → Option String)
    (tok : String → List String) (sw : List String) :
    DBState → Nat → Nat → BuildOut
  | st, _, 0 => ⟨0, st, [], false⟩
  | st, id, n + 1 =>
    if (processEbook (metaOr id) (textOr id) tok sw st id).err then
      ⟨0, (processEbook (metaOr id) (textOr id) tok sw st id).state,
        (processEbook (metaOr id) (textOr id) tok sw st id).events, true⟩
    else
      ⟨(if (processEbook (metaOr id) (textOr id) tok sw st id).counted then 1 else 0)
          + (buildAux metaOr textOr tok sw
              (processEbook (metaOr id) (textOr id) tok sw st id).state (id + 1) n).cnt,
        (buildAux metaOr textOr tok sw
          (processEbook (metaOr id) (textOr id) tok sw st id).state (id + 1) n).state,
        (processEbook (metaOr id) (textOr id) tok sw st id).events
          ++ (buildAux metaOr textOr tok sw
              (processEbook (metaOr id) (textOr id) tok sw st id).state (id + 1) n).events,
        (buildAux metaOr textOr tok sw
          (processEbook (metaOr id) (textOr id) tok sw st id).state (id + 1) n).err⟩

/-- `build` (lines 339-365) over the id range `[start, endId)`. -/
def build (metaOr : Nat → Option Meta) (textOr : Nat → Option String)
    (tok : String → List String) (sw : List String)
    (st : DBState) (start endId : Nat) : BuildOut :=
  buildAux metaOr textOr tok sw st start (endId - start)

/-- A database with empty tables, in fast mode (as the loader's main
program configures it). -/
def emptyDB : DBState :=
  ⟨[], [], [], freshW [], [], false⟩

/-! ### Branch equations for `processEbook` -/

theorem processEbook_of_nometa (meta? : Option Meta) (text? : Option String)
    (tok : String → List String) (sw : List String) (st : DBState) (id : Nat)
    (hm : meta? = none) :
    processEbook meta? text? tok sw st id = ⟨st, [], false, false⟩ := by
  unfold processEbook
  rw [hm]
  by_cases h : _has_ebook st id = true
  · rw [if_pos h]
  · rw [if_neg h]

theorem processEbook_of_lang (meta? : Option Meta) (text? : Option String)
    (tok : String → List String) (sw : List String) (st : DBState) (id : Nat)
    (m : Meta) (hm : meta? = some m) (hl : m.language ≠ "en") :
    processEbook meta? text? tok sw st id = ⟨st, [], false, false⟩ := by
  unfold processEbook
  rw [hm]
  by_cases h : _has_ebook st id = true
  · rw [if_pos h]
  · rw [if_neg h]
    simp [hl]

theorem processEbook_of_noextract (meta? : Option Meta) (text? : Option String)
    (tok : String → List String) (sw : List String) (st : DBState) (id : Nat)
    (m : Meta) (hm : meta? = some m) (hl : m.language = "en")
    (ht : text?.bind extractBodyStr = none) :
    processEbook meta? text? tok sw st id = ⟨st, [], false, false⟩ := by
  unfold processEbook
  rw [hm]
  by_cases h : _has_ebook st id = true
  · rw [if_pos h]
  · rw [if_neg h]
    simp [hl, ht]

theorem processEbook_of_ok (meta? : Option Meta) (text? : Option String)
    (tok : String → List String) (sw : List String) (st : DBState) (id : Nat)
    (m : Meta) (body : String)
    (hhas : _has_ebook st id = false) (hm : meta? = some m)
    (hl : m.language = "en") (ht : text?.bind extractBodyStr = some body) :
    processEbook meta? text? tok sw st id =
      (match _add_ebook_words (_add_ebook st id m).1 id (count_words tok sw body) with
       | .error _ => ⟨(_add_ebook st id m).1, (_add_ebook st id m).2, false, true⟩
       | .ok q => ⟨q.1, (_add_ebook st id m).2 ++ q.2, true, false⟩) := by
  unfold processEbook
  rw [hm, if_neg (by simp [hhas])]
  simp [hl, ht]

theorem _add_ebook_words_cons (st : DBState) (id : Nat) (c : String × Nat)
    (rest : List (String × Nat)) :
    _add_ebook_words st id (c :: rest)
      = .ok ({ st with
                words := (resolveIds st ((c :: rest).map fun kv => kv.1)).2,
                ebookWords := st.ebookWords
                  ++ ewVals id (resolveIds st ((c :: rest).map fun kv => kv.1)).1
                      ((c :: rest).map fun kv => kv.2) },
             [.queueEW (ewVals id (resolveIds st ((c :: rest).map fun kv => kv.1)).1
                 ((c :: rest).map fun kv => kv.2))]) :=
  rfl

theorem _add_author_ebooks (st : DBState) (a : ARow) :
    (_add_author st a).1.ebooks = st.ebooks := by
  unfold _add_author
  by_cases h : _has_author st a.author_id = true
  · rw [if_pos h]
  · rw [if_neg h]

theorem authorsFold_ebooks (as : List ARow) (acc : DBState × List Ev) :
    (as.foldl (fun (acc : DBState × List Ev) a =>
      let q := _add_author acc.1 a
      (q.1, acc.2 ++ q.2)) acc).1.ebooks = acc.1.ebooks := by
  induction as generalizing acc with
  | nil => rfl
  | cons a as ih =>
    rw [List.foldl_cons, ih]
    exact _add_author_ebooks acc.1 a

theorem _add_ebook_ebooks (st : DBState) (id : Nat) (m : Meta) :
    (_add_ebook st id m).1.ebooks = st.ebooks ++ [⟨id, m.title, m.language⟩] := by
  unfold _add_ebook
  by_cases h : m.author.isEmpty = true
  · rw [if_pos h]
  · rw [if_neg h]
    exact authorsFold_ebooks m.author _

theorem processEbook_of_good (meta? : Option Meta) (text? : Option String)
    (tok : String → List String) (sw : List String) (st : DBState) (id : Nat)
    (m : Meta) (body : String)
    (hhas : _has_ebook st id = false) (hm : meta? = some m)
    (hl : m.language = "en") (ht : text?.bind extractBodyStr = some body)
    (hc : count_words tok sw body ≠ []) :
    (processEbook meta? text? tok sw st id).err = false ∧
    (processEbook meta? text? tok sw st id).counted = true ∧
    (processEbook meta? text? tok sw st id).state.ebooks
      = st.ebooks ++ [⟨id, m.title, m.language⟩] := by
  rw [processEbook_of_ok meta? text? tok sw st id m body hhas hm hl ht]
  cases hcw : count_words tok sw body with
  | nil => exact absurd hcw hc
  | cons c rest =>
    rw [_add_ebook_words_cons]
    exact ⟨rfl, rfl, _add_ebook_ebooks st id m⟩

theorem processEbook_of_empty (meta? : Option Meta) (text? : Option String)
    (tok : String → List String) (sw : List String) (st : DBState) (id : Nat)
    (m : Meta) (body : String)
    (hhas : _has_ebook st id = false) (hm : meta? = some m)
    (hl : m.language = "en") (ht : text?.bind extractBodyStr = some body)
    (hc : count_words tok sw body = []) :
    processEbook meta? text? tok sw st id
      = ⟨(_add_ebook st id m).1, (_add_ebook st id m).2, false, true⟩ := by
  rw [processEbook_of_ok meta? text? tok sw st id m body hhas hm hl ht, hc]
  rfl

/-! ### Claim C9: header not found -/

/-- Claim C9: on a raw text in which no header pattern matches within the
searched prefix, `get_ebook`'s extraction returns nothing, and the
pipeline skips the ebook id: the state is unchanged, no store event is
emitted, and nothing is counted. -/
theorem c9_header_not_found_skips (metaOr : Nat → Option Meta)
    (textOr : Nat → Option String) (tok : String → List String) (sw : List String)
    (st : DBState) (id : Nat) (m : Meta) (t : String)
    (hm : metaOr id = some m) (hl : m.language = "en")
    (ht : textOr id = some t)
    (hh : firstMatch ebookHeaders (t.data.take 20000) = none) :
    extractBodyStr t = none ∧
    processEbook (metaOr id) (textOr id) tok sw st id = ⟨st, [], false, false⟩ ∧
    build metaOr textOr tok sw st id (id + 1) = ⟨0, st, [], false⟩ := by
  have hex : extractBody t.data = none := by
    unfold extractBody
    rw [hh]
  have hexs : extractBodyStr t = none := by
    unfold extractBodyStr
    rw [hex]
    rfl
  have hbind : (textOr id).bind extractBodyStr = none := by
    rw [ht]
    simpa using hexs
  have hstep := processEbook_of_noextract (metaOr id) (textOr id) tok sw st id m hm hl hbind
  refine ⟨hexs, hstep, ?_⟩
  unfold build
  rw [Nat.add_sub_cancel_left]
  show buildAux metaOr textOr tok sw st id (0 + 1) = ⟨0, st, [], false⟩
  unfold buildAux
  rw [hstep]
  rfl

/-- Witness for C9: a text with no header marker is skipped without any
row creation. -/
theorem c9_header_not_found_skips_witness :
    extractBodyStr "Just some text\n" = none ∧
    processEbook (some ⟨"T", "en", []⟩) (some "Just some text\n") wsTokenize []
      emptyDB 3 = ⟨emptyDB, [], false, false⟩ ∧
    build (fun _ => some ⟨"T", "en", []⟩) (fun _ => some "Just some text\n")
      wsTokenize [] emptyDB 3 4 = ⟨0, emptyDB, [], false⟩ :=
  c9_header_not_found_skips (fun _ => some ⟨"T", "en", []⟩)
    (fun _ => some "Just some text\n") wsTokenize [] emptyDB 3 ⟨"T", "en", []⟩
    "Just some text\n" rfl rfl rfl (by decide)

/-! ### Claims C10 and C8: the empty-counts exception -/

/-- Claim C10: `_add_ebook_words` raises on an empty word-count mapping
(the `zip(*word_counts.items())` unpack) before preparing any frequency
row, and `build` invokes it unguarded: an ingested ebook whose extracted
body yields no retained token aborts the run right after its ebook row
was written (the trace holds the ebook insert and no frequency batch). -/
theorem c10_empty_counts_raise :
    (∀ (st : DBState) (id : Nat), _add_ebook_words st id [] = .error .valueError) ∧
    (build (fun _ => some ⟨"A", "en", []⟩)
      (fun _ => some "\n<<THIS ELECTRONIC VERSION\nabc")
      wsTokenize [] emptyDB 3 4).err = true ∧
    (build (fun _ => some ⟨"A", "en", []⟩)
      (fun _ => some "\n<<THIS ELECTRONIC VERSION\nabc")
      wsTokenize [] emptyDB 3 4).events = [.insertEbook ⟨3, "A", "en"⟩] :=
  ⟨fun st id => rfl, by decide, by decide⟩

/-- Claim C8, refuted at a concrete input: an ebook whose boundary
extraction yields an empty body (header and footer markers collide at the
text start) produces an empty word-count mapping, and the resulting
ValueError escapes `build` — a single bad ebook aborts the range import. -/
theorem c8_bad_ebook_raises :
    (build (fun _ => some ⟨"B", "en", []⟩)
      (fun _ => some "\n<<THIS ELECTRONIC VERSION\nxyz")
      wsTokenize [] emptyDB 7 9).err = true := by
  decide

/-- An id the pipeline skips by construction: metadata failed, the ebook
is not English, or the text fetch or boundary extraction failed. -/
def skipB (meta? : Option Meta) (text? : Option String) : Bool :=
  match meta? with
  | none => true
  | some m => m.language != "en" || (text?.bind extractBodyStr).isNone

/-- An id the pipeline can ingest: English metadata, extractable body,
and a nonempty word-count mapping. -/
def goodB (meta? : Option Meta) (text? : Option String)
    (tok : String → List String) (sw : List String) : Bool :=
  match meta? with
  | none => false
  | some m =>
    m.language == "en" &&
      (match text?.bind extractBodyStr with
       | none => false
       | some body => !(count_words tok sw body).isEmpty)

theorem skip_not_good (meta? : Option Meta) (text? : Option String)
    (tok : String → List String) (sw : List String)
    (h : skipB meta? text? = true) : goodB meta? text? tok sw = false := by
  unfold skipB at h
  unfold goodB
  cases hm : meta? with
  | none => rfl
  | some m =>
    rw [hm] at h
    have h2 : (m.language != "en") = true ∨ (text?.bind extractBodyStr).isNone = true := by
      simpa using h
    rcases h2 with h1 | h1
    · simp only [bne_iff_ne, ne_eq] at h1
      simp [h1]
    · rw [Option.isNone_iff_eq_none] at h1
      rw [h1]
      simp

theorem processEbook_of_present (meta? : Option Meta) (text? : Option String)
    (tok : String → List String) (sw : List String) (st : DBState) (id : Nat)
    (h : _has_ebook st id = true) :
    processEbook meta? text? tok sw st id = ⟨st, [], false, false⟩ := by
  unfold processEbook
  rw [if_pos h]

/-- The loop of `build`, when every id of the range is already present,
skipped by the pipeline's own checks, or ingestible with nonempty counts:
no exception escapes and the count is exactly the number of ingested ids.
The invariant `hinv` relates the evolving presence check to the initial
store: ids at or beyond the current one are present now iff they were
present initially (the loop only ever inserts the id it is processing). -/
theorem buildAux_skip_classes (metaOr : Nat → Option Meta)
    (textOr : Nat → Option String) (tok : String → List String) (sw : List String)
    (n : Nat) :
    ∀ (st st0 : DBState) (s : Nat),
      (∀ k, s ≤ k → _has_ebook st k = _has_ebook st0 k) →
      (∀ k, s ≤ k → k < s + n → _has_ebook st0 k = true
        ∨ skipB (metaOr k) (textOr k) = true
        ∨ goodB (metaOr k) (textOr k) tok sw = true) →
      (buildAux metaOr textOr tok sw st s n).err = false ∧
      (buildAux metaOr textOr tok sw st s n).cnt
        = ((List.range' s n).filter fun k =>
            !(_has_ebook st0 k) && goodB (metaOr k) (textOr k) tok sw).length := by
  induction n with
  | zero =>
    intro st st0 s hinv hclass
    refine ⟨rfl, ?_⟩
    show (0 : Nat) = _
    simp
  | succ n ih =>
    intro st st0 s hinv hclass
    by_cases hpres : _has_ebook st0 s = true
    · have hstep : processEbook (metaOr s) (textOr s) tok sw st s
          = ⟨st, [], false, false⟩ :=
        processEbook_of_present _ _ tok sw st s (by rw [hinv s (le_refl s)]; exact hpres)
      obtain ⟨ih1, ih2⟩ := ih st st0 (s + 1)
        (fun k hk => hinv k (by omega))
        (fun k hk1 hk2 => hclass k (by omega) (by omega))
      constructor
      · unfold buildAux
        rw [hstep]
        simpa using ih1
      · unfold buildAux
        rw [hstep, List.range'_succ, List.filter_cons]
        simpa [hpres] using ih2
    · have hpresf : _has_ebook st0 s = false := by simpa using hpres
      have hhas : _has_ebook st s = false := by
        rw [hinv s (le_refl s)]
        exact hpresf
      rcases hclass s (le_refl s) (by omega) with hp | hskip | hgood
      · exact absurd hp hpres
      · have hstep : processEbook (metaOr s) (textOr s) tok sw st s
            = ⟨st, [], false, false⟩ := by
          unfold skipB at hskip
          cases hmeta : metaOr s with
          | none => exact processEbook_of_nometa _ _ tok sw st s rfl
          | some m =>
            rw [hmeta] at hskip
            by_cases hl : m.language = "en"
            · have h2 : (m.language != "en") = true
                  ∨ ((textOr s).bind extractBodyStr).isNone = true := by
                simpa using hskip
              rcases h2 with h1 | h1
              · exact absurd (by simpa using h1) (by simp [hl])
              · exact processEbook_of_noextract _ _ tok sw st s m rfl hl
                  (Option.isNone_iff_eq_none.mp h1)
            · exact processEbook_of_lang _ _ tok sw st s m rfl hl
        have hgf : goodB (metaOr s) (textOr s) tok sw = false :=
          skip_not_good _ _ tok sw hskip
        obtain ⟨ih1, ih2⟩ := ih st st0 (s + 1)
          (fun k hk => hinv k (by omega))
          (fun k hk1 hk2 => hclass k (by omega) (by omega))
        constructor
        · unfold buildAux
          rw [hstep]
          simpa using ih1
        · unfold buildAux
          rw [hstep, List.range'_succ, List.filter_cons]
          simpa [hgf] using ih2
      · unfold goodB at hgood
        cases hmeta : metaOr s with
        | none =>
          rw [hmeta] at hgood
          simp at hgood
        | some m =>
          rw [hmeta] at hgood
          cases hb : (textOr s).bind extractBodyStr with
          | none =>
            rw [hb] at hgood
            simp at hgood
          | some body =>
            rw [hb] at hgood
            have h2 : m.language = "en" ∧ (count_words tok sw body).isEmpty = false := by
              simpa using hgood
            obtain ⟨hl, hcne⟩ := h2
            have hcne' : count_words tok sw body ≠ [] := by
              intro he
              rw [he] at hcne
              simp at hcne
            obtain ⟨herr, hcnt, hebooks⟩ := processEbook_of_good (metaOr s) (textOr s)
              tok sw st s m body hhas hmeta hl hb hcne'
            have hinv' : ∀ k, s + 1 ≤ k →
                _has_ebook (processEbook (metaOr s) (textOr s) tok sw st s).state k
                  = _has_ebook st0 k := by
              intro k hk
              show ((processEbook (metaOr s) (textOr s) tok sw st s).state.ebooks.any
                fun e => e.ebook_id == k) = _
              rw [hebooks, List.any_append]
              have h1 : _has_ebook st k = _has_ebook st0 k := hinv k (by omega)
              unfold _has_ebook at h1
              rw [h1]
              have h3 : (([(⟨s, m.title, m.language⟩ : ERow)]).any
                  fun e => e.ebook_id == k) = false := by
                simp
                omega
              rw [h3, Bool.or_false]
              rfl
            obtain ⟨ih1, ih2⟩ := ih
              (processEbook (metaOr s) (textOr s) tok sw st s).state st0 (s + 1) hinv'
              (fun k hk1 hk2 => hclass k (by omega) (by omega))
            have hgt : goodB (metaOr s) (textOr s) tok sw = true := by
              unfold goodB
              rw [hmeta, hb]
              simp [hl, hcne]
            constructor
            · unfold buildAux
              rw [if_neg (by simp [herr])]
              exact ih1
            · unfold buildAux
              rw [if_neg (by simp [herr]), List.range'_succ, List.filter_cons]
              simp [hgt, hcnt, hpresf, ih2]
              omega

/-- Amended claim C8: per-ebook failures of the kinds the code checks for
— metadata fetch or parse failure, non-English language, text fetch or
boundary-extraction failure — and already-present ids are skipped (the
parse and boundary failures with a printed message, the others silently),
and `build` continues with the next id, returning the count of
successfully ingested ebooks.  An ebook reaching ingestion with an empty
word-count mapping instead raises out of `build` (see the
counterexample), so the range is assumed free of that case. -/
theorem c8_recognized_failures_skipped (metaOr : Nat → Option Meta)
    (textOr : Nat → Option String) (tok : String → List String) (sw : List String)
    (st0 : DBState) (s n : Nat)
    (hclass : ∀ k, s ≤ k → k < s + n → _has_ebook st0 k = true
      ∨ skipB (metaOr k) (textOr k) = true
      ∨ goodB (metaOr k) (textOr k) tok sw = true) :
    (buildAux metaOr textOr tok sw st0 s n).err = false ∧
    (buildAux metaOr textOr tok sw st0 s n).cnt
      = ((List.range' s n).filter fun k =>
          !(_has_ebook st0 k) && goodB (metaOr k) (textOr k) tok sw).length :=
  buildAux_skip_classes metaOr textOr tok sw n st0 st0 s (fun _ _ => rfl) hclass

/-- Witness for the amended C8: over the range `[1, 5)` with id 1 failing
metadata, id 2 already present in the store, id 3 ingestible and id 4
non-English, `build` completes without raising and counts exactly the one
ingested ebook. -/
theorem c8_recognized_failures_skipped_witness :
    (buildAux
      (fun k => if k = 1 then none
        else if k = 4 then some ⟨"F", "fr", []⟩ else some ⟨"T", "en", []⟩)
      (fun _ => some "\nProduced by X\ncat cat\nEnd of Project Gutenberg\n")
      wsTokenize [] ⟨[⟨2, "Old", "en"⟩], [], [], freshW [], [], false⟩ 1 4).err
        = false ∧
    (buildAux
      (fun k => if k = 1 then none
        else if k = 4 then some ⟨"F", "fr", []⟩ else some ⟨"T", "en", []⟩)
      (fun _ => some "\nProduced by X\ncat cat\nEnd of Project Gutenberg\n")
      wsTokenize [] ⟨[⟨2, "Old", "en"⟩], [], [], freshW [], [], false⟩ 1 4).cnt
        = 1 := by
  have h := c8_recognized_failures_skipped
    (fun k => if k = 1 then none
      else if k = 4 then some ⟨"F", "fr", []⟩ else some ⟨"T", "en", []⟩)
    (fun _ => some "\nProduced by X\ncat cat\nEnd of Project Gutenberg\n")
    wsTokenize [] ⟨[⟨2, "Old", "en"⟩], [], [], freshW [], [], false⟩ 1 4 (by decide)
  exact ⟨h.1, by rw [h.2]; decide⟩

/-! ### Claim C7: no frequency rows for absent ebooks -/

/-- Apply a main-thread store event; a queued batch is not yet applied. -/
def mainApply (st : DBState) : Ev → DBState
  | .insertEbook e => { st with ebooks := st.ebooks ++ [e] }
  | .insertAuthor a => { st with authors := st.authors ++ [a] }
  | .insertEbookAuthors ps => { st with ebookAuthors := st.ebookAuthors ++ ps }
  | .queueEW _ => st

/-- Fold the main-thread writes of a trace into the store. -/
def mainFold (st : DBState) (evs : List Ev) : DBState :=
  evs.foldl mainApply st

/-- The frequency batches queued in a trace. -/
def queuedBatches : List Ev → List (List EWRow)
  | [] => []
  | .queueEW rs :: t => rs :: queuedBatches t
  | .insertEbook _ :: t => queuedBatches t
  | .insertAuthor _ :: t => queuedBatches t
  | .insertEbookAuthors _ :: t => queuedBatches t

/-- The ebook rows inserted by a trace. -/
def ebooksOf : List Ev → List ERow
  | [] => []
  | .insertEbook e :: t => e :: ebooksOf t
  | .insertAuthor _ :: t => ebooksOf t
  | .insertEbookAuthors _ :: t => ebooksOf t
  | .queueEW _ :: t => ebooksOf t

/-- The store states reachable while the trace runs: the main-thread
writes of any prefix, plus any subset of the batches queued within that
prefix (each batch is applied by the background thread at some time after
being queued, and before the next join). -/
def ReachableEW (st0 : DBState) (evs : List Ev) (st : DBState) : Prop :=
  ∃ n bs, List.Sublist bs (queuedBatches (evs.take n)) ∧
    st = { mainFold st0 (evs.take n) with
            ebookWords := (mainFold st0 (evs.take n)).ebookWords ++ bs.flatten }

/-- Every batch queued in the trace refers only to ebooks whose rows were
inserted earlier in the trace or were already present. -/
def SafeTrace (eb : List ERow) : List Ev → Prop
  | [] => True
  | .insertEbook e :: t => SafeTrace (eb ++ [e]) t
  | .insertAuthor _ :: t => SafeTrace eb t
  | .insertEbookAuthors _ :: t => SafeTrace eb t
  | .queueEW rs :: t =>
      (∀ r ∈ rs, ∃ e ∈ eb, e.ebook_id = r.ebook_id) ∧ SafeTrace eb t

theorem safeTrace_of_noqueue (evs : List Ev)
    (h : ∀ ev ∈ evs, ∀ rs, ev ≠ .queueEW rs) :
    ∀ eb, SafeTrace eb evs := by
  induction evs with
  | nil => intro eb; exact trivial
  | cons ev t ih =>
    intro eb
    have ht : ∀ ev ∈ t, ∀ rs, ev ≠ Ev.queueEW rs :=
      fun x hx => h x (List.mem_cons_of_mem ev hx)
    cases ev with
    | insertEbook e => exact ih ht (eb ++ [e])
    | insertAuthor a => exact ih ht eb
    | insertEbookAuthors ps => exact ih ht eb
    | queueEW rs => exact absurd rfl (h _ (List.mem_cons_self _ t) rs)

theorem ebooksOf_eq_nil (evs : List Ev)
    (h : ∀ ev ∈ evs, ∀ e, ev ≠ .insertEbook e) :
    ebooksOf evs = [] := by
  induction evs with
  | nil => rfl
  | cons ev t ih =>
    have ht : ∀ ev ∈ t, ∀ e, ev ≠ Ev.insertEbook e :=
      fun x hx => h x (List.mem_cons_of_mem ev hx)
    cases ev with
    | insertEbook e => exact absurd rfl (h _ (List.mem_cons_self _ t) e)
    | insertAuthor a => exact ih ht
    | insertEbookAuthors ps => exact ih ht
    | queueEW rs => exact ih ht

theorem ebooksOf_append (a b : List Ev) :
    ebooksOf (a ++ b) = ebooksOf a ++ ebooksOf b := by
  induction a with
  | nil => rfl
  | cons ev t ih => cases ev <;> simp [ebooksOf, ih]

theorem safeTrace_append (a b : List Ev) :
    ∀ eb, SafeTrace eb (a ++ b) ↔
      SafeTrace eb a ∧ SafeTrace (eb ++ ebooksOf a) b := by
  induction a with
  | nil => intro eb; simp [SafeTrace, ebooksOf]
  | cons ev t ih =>
    intro eb
    cases ev with
    | insertEbook e =>
      show SafeTrace (eb ++ [e]) (t ++ b) ↔
        SafeTrace (eb ++ [e]) t ∧ SafeTrace (eb ++ (e :: ebooksOf t)) b
      rw [ih (eb ++ [e]), List.append_assoc]
      exact Iff.rfl
    | insertAuthor a0 =>
      show SafeTrace eb (t ++ b) ↔ SafeTrace eb t ∧ SafeTrace (eb ++ ebooksOf t) b
      exact ih eb
    | insertEbookAuthors ps =>
      show SafeTrace eb (t ++ b) ↔ SafeTrace eb t ∧ SafeTrace (eb ++ ebooksOf t) b
      exact ih eb
    | queueEW rs =>
      show ((∀ r ∈ rs, ∃ e ∈ eb, e.ebook_id = r.ebook_id) ∧ SafeTrace eb (t ++ b)) ↔
        ((∀ r ∈ rs, ∃ e ∈ eb, e.ebook_id = r.ebook_id) ∧ SafeTrace eb t) ∧
          SafeTrace (eb ++ ebooksOf t) b
      rw [ih eb, and_assoc]

theorem _add_author_events (st : DBState) (a : ARow) :
    ∀ ev ∈ (_add_author st a).2, ∃ a0, ev = .insertAuthor a0 := by
  unfold _add_author
  by_cases h : _has_author st a.author_id = true
  · rw [if_pos h]
    intro ev hev
    cases hev
  · rw [if_neg h]
    intro ev hev
    simp at hev
    exact ⟨a, hev⟩

theorem authorsFold_events (as : List ARow) (acc : DBState × List Ev)
    (hacc : ∀ ev ∈ acc.2, ∃ a0, ev = .insertAuthor a0) :
    ∀ ev ∈ (as.foldl (fun (acc : DBState × List Ev) a =>
      let q := _add_author acc.1 a
      (q.1, acc.2 ++ q.2)) acc).2, ∃ a0, ev = .insertAuthor a0 := by
  induction as generalizing acc with
  | nil => exact hacc
  | cons a as ih =>
    rw [List.foldl_cons]
    refine ih _ ?_
    intro ev hev
    rcases List.mem_append.mp hev with h1 | h1
    · exact hacc ev h1
    · exact _add_author_events acc.1 a ev h1

theorem _add_ebook_events (st : DBState) (id : Nat) (m : Meta) :
    ∃ rest, (_add_ebook st id m).2 = Ev.insertEbook ⟨id, m.title, m.language⟩ :: rest ∧
      ∀ ev ∈ rest, (∀ e, ev ≠ .insertEbook e) ∧ ∀ rs, ev ≠ .queueEW rs := by
  unfold _add_ebook
  by_cases h : m.author.isEmpty = true
  · rw [if_pos h]
    refine ⟨[], rfl, ?_⟩
    intro ev hev
    cases hev
  · rw [if_neg h]
    refine ⟨_, rfl, ?_⟩
    intro ev hev
    rcases List.mem_append.mp hev with h1 | h1
    · obtain ⟨a0, ha0⟩ := authorsFold_events m.author _ (by intro ev h0; cases h0) ev h1
      subst ha0
      exact ⟨fun e => by simp, fun rs => by simp⟩
    · simp at h1
      subst h1
      exact ⟨fun e => by simp, fun rs => by simp⟩

theorem ewVals_ebook_id (id : Nat) (ids : List Int) (cs : List Nat) :
    ∀ r ∈ ewVals id ids cs, r.ebook_id = id := by
  intro r hr
  obtain ⟨x, _, hx⟩ := List.mem_map.mp hr
  rw [← hx]

theorem processEbook_trace (meta? : Option Meta) (text? : Option String)
    (tok : String → List String) (sw : List String) (st : DBState) (id : Nat) :
    SafeTrace st.ebooks (processEbook meta? text? tok sw st id).events ∧
    (processEbook meta? text? tok sw st id).state.ebooks
      = st.ebooks ++ ebooksOf (processEbook meta? text? tok sw st id).events := by
  by_cases hhas : _has_ebook st id = true
  · have hp : processEbook meta? text? tok sw st id = ⟨st, [], false, false⟩ := by
      unfold processEbook
      rw [if_pos hhas]
    rw [hp]
    exact ⟨trivial, by simp [ebooksOf]⟩
  · have hhas' : _has_ebook st id = false := by simpa using hhas
    cases hm : meta? with
    | none =>
      rw [processEbook_of_nometa none text? tok sw st id rfl]
      exact ⟨trivial, by simp [ebooksOf]⟩
    | some m =>
      by_cases hl : m.language = "en"
      · cases hb : text?.bind extractBodyStr with
        | none =>
          rw [processEbook_of_noextract (some m) text? tok sw st id m rfl hl hb]
          exact ⟨trivial, by simp [ebooksOf]⟩
        | some body =>
          obtain ⟨rest, hev, hprop⟩ := _add_ebook_events st id m
          have hrow : (_add_ebook st id m).1.ebooks
              = st.ebooks ++ [⟨id, m.title, m.language⟩] := _add_ebook_ebooks st id m
          have hsafe0 : SafeTrace st.ebooks (_add_ebook st id m).2 := by
            rw [hev]
            show SafeTrace (st.ebooks ++ [(⟨id, m.title, m.language⟩ : ERow)]) rest
            exact safeTrace_of_noqueue rest (fun ev h rs => (hprop ev h).2 rs) _
          have hebof : ebooksOf (_add_ebook st id m).2 = [⟨id, m.title, m.language⟩] := by
            rw [hev]
            show (⟨id, m.title, m.language⟩ : ERow) :: ebooksOf rest = _
            rw [ebooksOf_eq_nil rest (fun ev h e => (hprop ev h).1 e)]
          cases hcw : count_words tok sw body with
          | nil =>
            rw [processEbook_of_empty (some m) text? tok sw st id m body hhas' rfl hl hb hcw]
            exact ⟨hsafe0, by rw [hrow, hebof]⟩
          | cons c rest' =>
            rw [processEbook_of_ok (some m) text? tok sw st id m body hhas' rfl hl hb, hcw,
              _add_ebook_words_cons]
            constructor
            · rw [safeTrace_append]
              refine ⟨hsafe0, ?_⟩
              rw [hebof]
              show (∀ r ∈ ewVals id _ _, ∃ e ∈ st.ebooks ++ [(⟨id, m.title, m.language⟩ : ERow)],
                e.ebook_id = r.ebook_id) ∧ True
              refine ⟨fun r hr => ?_, trivial⟩
              exact ⟨⟨id, m.title, m.language⟩, by simp, (ewVals_ebook_id id _ _ r hr).symm⟩
            · show (_add_ebook st id m).1.ebooks
                  = st.ebooks ++ ebooksOf ((_add_ebook st id m).2
                      ++ [Ev.queueEW (ewVals id
                            (resolveIds (_add_ebook st id m).1
                              ((c :: rest').map fun kv => kv.1)).1
                            ((c :: rest').map fun kv => kv.2))])
              rw [hrow, ebooksOf_append, hebof]
              simp [ebooksOf]
      · rw [processEbook_of_lang (some m) text? tok sw st id m rfl hl]
        exact ⟨trivial, by simp [ebooksOf]⟩

theorem buildAux_trace (metaOr : Nat → Option Meta) (textOr : Nat → Option String)
    (tok : String → List String) (sw : List String) (n : Nat) :
    ∀ st id, SafeTrace st.ebooks (buildAux metaOr textOr tok sw st id n).events ∧
      (buildAux metaOr textOr tok sw st id n).state.ebooks
        = st.ebooks ++ ebooksOf (buildAux metaOr textOr tok sw st id n).events := by
  induction n with
  | zero =>
    intro st id
    exact ⟨trivial, by simp [buildAux, ebooksOf]⟩
  | succ n ih =>
    intro st id
    obtain ⟨hp1, hp2⟩ := processEbook_trace (metaOr id) (textOr id) tok sw st id
    by_cases herr : (processEbook (metaOr id) (textOr id) tok sw st id).err = true
    · have hb : buildAux metaOr textOr tok sw st id (n + 1)
          = ⟨0, (processEbook (metaOr id) (textOr id) tok sw st id).state,
              (processEbook (metaOr id) (textOr id) tok sw st id).events, true⟩ := by
        unfold buildAux
        rw [if_pos herr]
      rw [hb]
      exact ⟨hp1, hp2⟩
    · have hb : buildAux metaOr textOr tok sw st id (n + 1)
          = ⟨(if (processEbook (metaOr id) (textOr id) tok sw st id).counted then 1 else 0)
                + (buildAux metaOr textOr tok sw
                    (processEbook (metaOr id) (textOr id) tok sw st id).state (id + 1) n).cnt,
              (buildAux metaOr textOr tok sw
                (processEbook (metaOr id) (textOr id) tok sw st id).state (id + 1) n).state,
              (processEbook (metaOr id) (textOr id) tok sw st id).events
                ++ (buildAux metaOr textOr tok sw
                    (processEbook (metaOr id) (textOr id) tok sw st id).state (id + 1) n).events,
              (buildAux metaOr textOr tok sw
                (processEbook (metaOr id) (textOr id) tok sw st id).state (id + 1) n).err⟩ := by
        rw [buildAux]
        rw [if_neg herr]
      rw [hb]
      obtain ⟨hr1, hr2⟩ :=
        ih (processEbook (metaOr id) (textOr id) tok sw st id).state (id + 1)
      constructor
      · rw [safeTrace_append]
        refine ⟨hp1, ?_⟩
        rw [← hp2]
        exact hr1
      · rw [hr2, hp2, ebooksOf_append, List.append_assoc]

theorem mainFold_ebooks_mem (evs : List Ev) (st : DBState) (e : ERow)
    (h : e ∈ st.ebooks) : e ∈ (mainFold st evs).ebooks := by
  induction evs generalizing st with
  | nil => exact h
  | cons ev t ih =>
    refine ih (mainApply st ev) ?_
    cases ev with
    | insertEbook e0 => exact List.mem_append_left _ h
    | insertAuthor a0 => exact h
    | insertEbookAuthors ps => exact h
    | queueEW rs => exact h

theorem mainFold_ebookWords (evs : List Ev) (st : DBState) :
    (mainFold st evs).ebookWords = st.ebookWords := by
  induction evs generalizing st with
  | nil => rfl
  | cons ev t ih =>
    rw [show mainFold st (ev :: t) = mainFold (mainApply st ev) t from rfl, ih]
    cases ev <;> rfl

theorem safeTrace_batches (evs : List Ev) :
    ∀ (st : DBState) (n : Nat), SafeTrace st.ebooks evs →
      ∀ rs ∈ queuedBatches (evs.take n), ∀ r ∈ rs,
        ∃ e ∈ (mainFold st (evs.take n)).ebooks, e.ebook_id = r.ebook_id := by
  induction evs with
  | nil =>
    intro st n h rs hrs
    rw [List.take_nil] at hrs
    cases hrs
  | cons ev t ih =>
    intro st n h rs hrs r hr
    cases n with
    | zero =>
      rw [List.take_zero] at hrs
      cases hrs
    | succ n =>
      rw [List.take_succ_cons] at hrs ⊢
      cases ev with
      | insertEbook e =>
        have hST : SafeTrace (mainApply st (Ev.insertEbook e)).ebooks t := h
        exact ih (mainApply st (Ev.insertEbook e)) n hST rs hrs r hr
      | insertAuthor a =>
        have hST : SafeTrace (mainApply st (Ev.insertAuthor a)).ebooks t := h
        exact ih (mainApply st (Ev.insertAuthor a)) n hST rs hrs r hr
      | insertEbookAuthors ps =>
        have hST : SafeTrace (mainApply st (Ev.insertEbookAuthors ps)).ebooks t := h
        exact ih (mainApply st (Ev.insertEbookAuthors ps)) n hST rs hrs r hr
      | queueEW rs0 =>
        have h2 : (∀ r ∈ rs0, ∃ e ∈ st.ebooks, e.ebook_id = r.ebook_id) ∧
            SafeTrace st.ebooks t := h
        have hq : queuedBatches (Ev.queueEW rs0 :: t.take n)
            = rs0 :: queuedBatches (t.take n) := rfl
        rw [hq] at hrs
        rcases List.mem_cons.mp hrs with h1 | h1
        · subst h1
          obtain ⟨e0, he0, heq⟩ := h2.1 r hr
          exact ⟨e0, mainFold_ebooks_mem _ _ _ he0, heq⟩
        · exact ih st n h2.2 rs h1 r hr

/-- Claim C7: the ebook (and author) rows are written synchronously
before the frequency batch is handed to the background thread, so no
reachable store state holds a frequency row for an ebook whose row is
absent — over any range, any oracles, and any initial state already
satisfying the invariant. -/
theorem c7_frequency_rows_have_ebook_rows (metaOr : Nat → Option Meta)
    (textOr : Nat → Option String) (tok : String → List String) (sw : List String)
    (st0 : DBState) (s e : Nat)
    (hInv : ∀ r ∈ st0.ebookWords, ∃ er ∈ st0.ebooks, er.ebook_id = r.ebook_id)
    (st : DBState)
    (hreach : ReachableEW st0 (build metaOr textOr tok sw st0 s e).events st) :
    ∀ r ∈ st.ebookWords, ∃ er ∈ st.ebooks, er.ebook_id = r.ebook_id := by
  obtain ⟨n, bs, hsub, hst⟩ := hreach
  subst hst
  intro r hr
  have hr2 : r ∈ st0.ebookWords ++ bs.flatten := by
    rw [← mainFold_ebookWords ((build metaOr textOr tok sw st0 s e).events.take n) st0]
    exact hr
  rcases List.mem_append.mp hr2 with h1 | h1
  · obtain ⟨er, her, heq⟩ := hInv r h1
    exact ⟨er, mainFold_ebooks_mem _ _ _ her, heq⟩
  · obtain ⟨rs, hrs, hrrs⟩ := List.mem_flatten.mp h1
    have hrsq : rs ∈ queuedBatches ((build metaOr textOr tok sw st0 s e).events.take n) :=
      hsub.subset hrs
    have hTrace : SafeTrace st0.ebooks (build metaOr textOr tok sw st0 s e).events :=
      (buildAux_trace metaOr textOr tok sw (e - s) st0 s).1
    exact safeTrace_batches _ st0 n hTrace rs hrsq r hrrs

/-- Witness for C7: in the store state reached after a one-ebook build
with the queued batch applied, the frequency row `⟨1, 1, 2⟩` has its
ebook row. -/
theorem c7_frequency_rows_have_ebook_rows_witness :
    ∃ er ∈ (⟨[⟨1, "T", "en"⟩], [], [], freshW [],
        [⟨1, 1, 2⟩, ⟨1, 2, 1⟩, ⟨1, 3, 1⟩, ⟨1, 4, 1⟩], false⟩ : DBState).ebooks,
      er.ebook_id = (⟨1, 1, 2⟩ : EWRow).ebook_id :=
  c7_frequency_rows_have_ebook_rows (fun _ => some ⟨"T", "en", []⟩)
    (fun _ => some "\nProduced by X\ncat cat\nEnd of Project Gutenberg\n")
    wsTokenize [] emptyDB 1 2 (by decide)
    (⟨[⟨1, "T", "en"⟩], [], [], freshW [],
      [⟨1, 1, 2⟩, ⟨1, 2, 1⟩, ⟨1, 3, 1⟩, ⟨1, 4, 1⟩], false⟩ : DBState)
    ⟨2, [[⟨1, 1, 2⟩, ⟨1, 2, 1⟩, ⟨1, 3, 1⟩, ⟨1, 4, 1⟩]], by decide, by decide⟩
    ⟨1, 1, 2⟩ (by decide)

end Gutenberg
